import Mathlib

/-!
Verification development for the semantic near-duplicate detection core:
the text normalizer and chunker, the embedding batching layer, the
similarity flagging rule, the exact-duplicate pre-collapse, the
union-find clustering engine, and the representative selector.

Strings are modelled as `List Char`.  Python integers are `Nat` or `Int`
as appropriate (chunk lengths never overflow, so no modular arithmetic is
needed).  Floating point similarity values are modelled as rationals, and
euclidean norms (which need square roots) as real numbers.
-/

namespace Deduplication

/-- The character class of Python's `\s` (ASCII range), as used by
`str.strip()` and the regexes in `normalize_text` / `split_into_paragraphs`. -/
def isPySpace (c : Char) : Bool :=
  c = ' ' || c = '\t' || c = '\n' || c = '\r' || c = '\x0b' || c = '\x0c'

/-- Horizontal whitespace, the class `[ \t]` of `normalize_text`. -/
def isHT (c : Char) : Bool :=
  c = ' ' || c = '\t'

/-- Model of `s.replace('\r', '\n')`. -/
def replaceCR (l : List Char) : List Char :=
  l.map (fun c => if c = '\r' then '\n' else c)

/-- Single-pass model of `re.sub(r'[ \t]+', ' ', s)`: every maximal run of
spaces/tabs becomes one space.  The boolean records whether we are inside
a run that has already emitted its space. -/
def collapseHTAux : Bool → List Char → List Char
  | _, [] => []
  | inRun, c :: rest =>
    if isHT c then
      if inRun then collapseHTAux true rest
      else ' ' :: collapseHTAux true rest
    else c :: collapseHTAux false rest

def collapseHT (l : List Char) : List Char :=
  collapseHTAux false l

/-- Replacement text for a run of `k` consecutive newlines under
`re.sub(r'\n{3,}', '\n\n', s)`: runs of three or more become exactly two,
shorter runs are kept. -/
def emitNL (k : Nat) : List Char :=
  if 3 ≤ k then ['\n', '\n'] else List.replicate k '\n'

/-- Single-pass model of `re.sub(r'\n{3,}', '\n\n', s)`.  The counter is
the number of consecutive newlines pending emission. -/
def collapseNLAux : Nat → List Char → List Char
  | k, [] => emitNL k
  | k, c :: rest =>
    if c = '\n' then collapseNLAux (k + 1) rest
    else emitNL k ++ c :: collapseNLAux 0 rest

def collapseNL (l : List Char) : List Char :=
  collapseNLAux 0 l

/-- Model of Python `str.strip()` (whitespace from both ends). -/
def stripPy (l : List Char) : List Char :=
  ((l.dropWhile isPySpace).reverse.dropWhile isPySpace).reverse

/-- `normalize_text` of Deduplication.py: collapse carriage returns to
newlines, runs of horizontal whitespace to one space, runs of three or
more newlines to two, then trim. -/
def normalize_text (s : List Char) : List Char :=
  stripPy (collapseNL (collapseHT (replaceCR s)))

/-- Single-pass model of `re.split(r'\n\s*\n', text)` with Python's
leftmost, greedy-then-backtrack semantics: a separator starts at a
newline and extends through the last newline of the maximal whitespace
run that follows it; whitespace after that last newline belongs to the
next piece.  `pend = some buf` means we are inside a whitespace run that
started with a newline, `buf` being the run read so far (starting with
that newline); `curp` is the piece accumulated so far. -/
def splitNNAux : Option (List Char) → List Char → List Char → List (List Char)
  | none, curp, [] => [curp]
  | some buf, curp, [] =>
    -- end of input closes the run: split if the run has a second newline
    if buf.drop 1 |>.contains '\n' then
      let m := buf.length - (buf.reverse.takeWhile (fun x => ¬ x = '\n')).length
      [curp, buf.drop m]
    else
      [curp ++ buf]
  | none, curp, c :: rest =>
    if c = '\n' then splitNNAux (some [c]) curp rest
    else splitNNAux none (curp ++ [c]) rest
  | some buf, curp, c :: rest =>
    if isPySpace c then splitNNAux (some (buf ++ [c])) curp rest
    else
      if buf.drop 1 |>.contains '\n' then
        let m := buf.length - (buf.reverse.takeWhile (fun x => ¬ x = '\n')).length
        curp :: splitNNAux none (buf.drop m ++ [c]) rest
      else
        splitNNAux none (curp ++ buf ++ [c]) rest

/-- `split_into_paragraphs`: split on blank-line separators, strip each
piece, keep the non-empty ones. -/
def split_into_paragraphs (t : List Char) : List (List Char) :=
  ((splitNNAux none [] t).map stripPy).filter (fun p => !p.isEmpty)

/-- Model of `"\n\n".join(parts)`. -/
def joinNN : List (List Char) → List Char
  | [] => []
  | [p] => p
  | p :: q :: ps => p ++ '\n' :: '\n' :: joinNN (q :: ps)

/-- Model of the Python slice `s[-ov:]` for `ov ≥ 1` (the code only takes
it under a `overlap > 0` guard): the last `ov` characters. -/
def pyTail (l : List Char) (ov : Nat) : List Char :=
  l.drop (l.length - ov)

/-- Loop state of `chunk_paragraphs`: emitted chunks, current paragraph
accumulator, and its running length (`cur_len` is a Python int, so an
`Int` here: the `overlap == 0` hard-split branch sets it to
`len(p) - chunk_size`). -/
structure ChunkState where
  chunks : List (List Char)
  cur : List (List Char)
  curLen : Int

/-- One iteration of the paragraph-packing loop of `chunk_paragraphs`. -/
def chunkStep (csize ov : Nat) (st : ChunkState) (p : List Char) : ChunkState :=
  if st.curLen + p.length + 1 ≤ (csize : Int) then
    { st with cur := st.cur ++ [p], curLen := st.curLen + p.length + 1 }
  else
    if st.cur ≠ [] then
      let joined := joinNN st.cur
      if 0 < ov then
        let tail := pyTail joined ov
        { chunks := st.chunks ++ [joined], cur := [tail, p],
          curLen := (tail.length : Int) + p.length + 1 }
      else
        { chunks := st.chunks ++ [joined], cur := [p],
          curLen := (p.length : Int) + 1 }
    else
      -- single paragraph longer than chunk_size: hard split
      if 0 < ov then
        let headPart := p.take csize
        let tail := pyTail headPart ov
        let rem := p.drop csize
        { chunks := st.chunks ++ [headPart], cur := [tail, rem],
          curLen := (tail.length : Int) + rem.length + 1 }
      else
        { chunks := st.chunks ++ [p.take csize], cur := [p.drop csize],
          curLen := (p.length : Int) - csize }

/-- `chunk_paragraphs` of Deduplication.py (identical logic in
app_streamlit_near_dupes.py): pack paragraphs into chunks of about
`chunk_size` characters with `overlap` characters carried between
adjacent chunks, flush the final partial chunk, then strip every chunk
and drop the empty ones.  The source performs no validation of
`chunk_size` against `overlap`. -/
def chunk_paragraphs (paragraphs : List (List Char)) (csize ov : Nat) : List (List Char) :=
  let fin := paragraphs.foldl (chunkStep csize ov) ⟨[], [], 0⟩
  let all := if fin.cur ≠ [] then fin.chunks ++ [joinNN fin.cur] else fin.chunks
  (all.map stripPy).filter (fun c => !c.isEmpty)

/-- Stable insertion of `x` into a list already sorted by descending key:
`x` goes before the first element whose key is less than or equal to its
own, so that among equal keys the original order survives.  Together with
`sortDescBy` this models Python's stable `list.sort(key=..., reverse=True)`. -/
def insertDescBy {α β : Type} [LinearOrder β] (key : α → β) (x : α) : List α → List α
  | [] => [x]
  | y :: ys => if key y ≤ key x then x :: y :: ys else y :: insertDescBy key x ys

/-- Stable sort by descending key (insertion sort), modelling
`list.sort(key=..., reverse=True)`. -/
def sortDescBy {α β : Type} [LinearOrder β] (key : α → β) : List α → List α
  | [] => []
  | x :: xs => insertDescBy key x (sortDescBy key xs)

/-- The flagging rule of Deduplication.main (and the `flag` expression of
app_streamlit_near_dupes.py): `doc_sim >= threshold or max_chunk_sim >= threshold`. -/
def is_flag (docSim maxChunkSim threshold : ℚ) : Bool :=
  decide (docSim ≥ threshold) || decide (maxChunkSim ≥ threshold)

/-- A scored pair as produced by `pairwise_doc_scores`:
`(file_a, file_b, doc_sim, max_chunk_sim)`. -/
abbrev ScoredPair := String × String × ℚ × ℚ

/-- The CSV report rows written by Deduplication.main: pairs sorted by
`max(doc_sim, max_chunk_sim)` descending, each with a YES/NO flag column. -/
def reportRows (pairs : List ScoredPair) (threshold : ℚ) :
    List (String × String × ℚ × ℚ × String) :=
  (sortDescBy (fun p => max p.2.2.1 p.2.2.2) pairs).map
    (fun p => (p.1, p.2.1, p.2.2.1, p.2.2.2,
      if is_flag p.2.2.1 p.2.2.2 threshold then "YES" else "NO"))

/-- The `flagged` list collected by Deduplication.main while writing the
report: the scored pairs whose flag is set. -/
def flaggedPairs (pairs : List ScoredPair) (threshold : ℚ) : List ScoredPair :=
  (sortDescBy (fun p => max p.2.2.1 p.2.2.2) pairs).filter
    (fun p => is_flag p.2.2.1 p.2.2.2 threshold)

end Deduplication

/-- Euclidean norm of a rational vector, as a real number:
model of `np.linalg.norm(v)`. -/
noncomputable def normQR (v : List ℚ) : ℝ :=
  Real.sqrt (((v.map (fun x => x * x)).sum : ℚ) : ℝ)

/-- Dot product of two real vectors (index-aligned). -/
def dotR (u v : List ℝ) : ℝ :=
  (List.zipWith (fun a b => a * b) u v).sum

/-- Euclidean norm of a real vector. -/
noncomputable def normRl (u : List ℝ) : ℝ :=
  Real.sqrt ((u.map (fun x => x * x)).sum)

/-- Cosine distance `1 - <u,v> / (|u| |v|)`, the `metric="cosine"` used by
the scikit-learn radius-neighbor search in `build_clusters`. -/
noncomputable def cosDistR (u v : List ℝ) : ℝ :=
  1 - dotR u v / (normRl u * normRl v)

namespace Deduplication

/-- Elementwise sum of two equal-length rational vectors. -/
def vecAdd (u v : List ℚ) : List ℚ :=
  List.zipWith (fun a b => a + b) u v

/-- Column mean of a rectangular matrix: model of `embs.mean(axis=0)`. -/
def colMean (rows : List (List ℚ)) : List ℚ :=
  match rows with
  | [] => []
  | r :: rs => (rs.foldl vecAdd r).map (fun x => x / (rows.length : ℚ))

/-- The denominator used by `mean_pool`: `np.linalg.norm(v) + 1e-8`. -/
noncomputable def mean_pool_denom (rows : List (List ℚ)) : ℝ :=
  normQR (colMean rows) + 1 / 100000000

/-- `mean_pool`: mean of the chunk vectors divided by its epsilon-guarded norm. -/
noncomputable def mean_pool (rows : List (List ℚ)) : List ℝ :=
  (colMean rows).map (fun x => (x : ℝ) / mean_pool_denom rows)

/-- The per-vector denominator of `OpenAIEmbedder.embed`:
`np.linalg.norm(v) + 1e-8` (identical in both source files). -/
noncomputable def openai_embed_denom (v : List ℚ) : ℝ :=
  normQR v + 1 / 100000000

end Deduplication

namespace DedupApp

/-- `normalize_text` of deduplicateApp.py:
`" ".join(s.strip().lower().split())`.  Lowercasing is modelled on the
basic latin range (`Char.toLower`), which is where Python's `str.lower`
agrees character-by-character. -/
def lowerPy (l : List Char) : List Char :=
  l.map Char.toLower

/-- Whitespace-token splitting, the model of Python's argumentless
`str.split()`: maximal runs of non-whitespace characters, in order.
`tok` is the token accumulated so far. -/
def pySplitAux : List Char → List Char → List (List Char)
  | tok, [] => if tok.isEmpty then [] else [tok]
  | tok, c :: rest =>
    if Deduplication.isPySpace c then
      if tok.isEmpty then pySplitAux [] rest else tok :: pySplitAux [] rest
    else pySplitAux (tok ++ [c]) rest

def pySplit (l : List Char) : List (List Char) :=
  pySplitAux [] l

/-- Model of `" ".join(parts)`. -/
def joinSpace : List (List Char) → List Char
  | [] => []
  | [t] => t
  | t :: u :: ts => t ++ ' ' :: joinSpace (u :: ts)

/-- `normalize_text` of deduplicateApp.py (the tabular normalizer):
strip, lowercase, split on whitespace, re-join with single spaces. -/
def normalize_text (s : List Char) : List Char :=
  joinSpace (pySplit (lowerPy (Deduplication.stripPy s)))

/-- `choose_representative` of deduplicateApp.py: under `"longest"`,
build `(index, len(texts[i]))` pairs, stable-sort them by length
descending and take the head; otherwise `min(indices)`.  Note the
lengths are those of the texts as passed (`main` passes the raw text
column, not the normalized text). -/
def choose_representative (indices : List Nat) (texts : List (List Char))
    (strategy : String) : Nat :=
  if strategy = "longest" then
    ((Deduplication.sortDescBy (fun p => p.2)
      (indices.map (fun i => (i, (texts.getD i []).length)))).headD (0, 0)).1
  else
    match indices with
    | [] => 0
    | i :: is => is.foldl Nat.min i

/-- The first index holding the same text as index `i`: model of the
`first_idx_by_text` dictionary of deduplicateApp.main. -/
def firstIdxOf (l : List (List Char)) (i : Nat) : Nat :=
  ((List.range l.length).find? (fun j => l.getD j [] = l.getD i [])).getD 0

/-- The sorted bucket-head indices `exact_reps = sorted(group_indices.keys())`:
the indices that are the first occurrence of their own text. -/
def exactReps (l : List (List Char)) : List Nat :=
  (List.range l.length).filter (fun i => firstIdxOf l i = i)

/-- The exact-duplicate pre-collapse of deduplicateApp.main applied to a
text column: keep the rows at the bucket-head indices, in index order. -/
def collapseExact (l : List (List Char)) : List (List Char) :=
  (exactReps l).map (fun i => l.getD i [])

/-- `group_indices[g]`: every row index whose bucket head is `g`. -/
def groupMembers (l : List (List Char)) (g : Nat) : List Nat :=
  (List.range l.length).filter (fun i => firstIdxOf l i = g)

/-- Model of Python's `sorted(set(xs))` for index lists whose members are
all below `n`. -/
def sortedSet (xs : List Nat) (n : Nat) : List Nat :=
  (List.range n).filter (fun i => xs.contains i)

/-- `batched` of deduplicateApp.py: consecutive slices `lst[i:i+n]`.  The
fuel argument (initially the list length) makes the recursion structural;
it suffices for every positive `n`, and `n = 0` (where the Python
`range(0, len, 0)` would raise) is out of scope for every caller. -/
def batchedAux {α : Type} : Nat → List α → Nat → List (List α)
  | 0, _, _ => []
  | _, [], _ => []
  | fuel + 1, x :: xs, n => (x :: xs).take n :: batchedAux fuel ((x :: xs).drop n) n

def batched {α : Type} (l : List α) (n : Nat) : List (List α) :=
  batchedAux l.length l n

/-- One iteration of the batch loop of `embed_texts`: extend the
accumulated vectors with the provider's response for one batch; a
previously raised error (or one raised here) short-circuits, modelling
exception propagation out of the loop. -/
def embedStep (provider : List (List Char) → Except String (List (List ℚ)))
    (acc : Except String (List (List ℚ))) (b : List (List Char)) :
    Except String (List (List ℚ)) :=
  match acc with
  | Except.error e => Except.error e
  | Except.ok vs =>
    match provider b with
    | Except.error e => Except.error e
    | Except.ok nv => Except.ok (vs ++ nv)

/-- `embed_texts` of deduplicateApp.py: call the provider batch by batch,
concatenating the returned vectors; a raised provider error aborts the
whole call (later batches are never issued).  The provider function
abstracts the OpenAI client together with its api-key check; its `Except`
error channel models a raised exception. -/
def embed_texts (provider : List (List Char) → Except String (List (List ℚ)))
    (texts : List (List Char)) (batchSize : Nat) : Except String (List (List ℚ)) :=
  (batched texts batchSize).foldl (embedStep provider) (Except.ok [])

/-- One parent-pointer lookup, `self.parent[x]` (indices are always in
range in the source; the default keeps the function total). -/
def pf (p : List Nat) (x : Nat) : Nat :=
  p.getD x x

/-- The `find` loop of the DSU class, with path halving:
`while parent[x] != x: parent[x] = parent[parent[x]]; x = parent[x]`.
The fuel (the array length at the call site) dominates the depth of
every node, so the loop always terminates within it. -/
def findLoop : Nat → List Nat → Nat → Nat × List Nat
  | 0, p, x => (x, p)
  | fuel + 1, p, x =>
    if pf p x = x then (x, p)
    else findLoop fuel (p.set x (pf p (pf p x))) (pf p (pf p x))

/-- Disjoint Set Union state: `self.parent` and `self.rank`. -/
structure DSU where
  parent : List Nat
  rank : List Nat

/-- `DSU.__init__(n)`. -/
def dsuInit (n : Nat) : DSU :=
  ⟨List.range n, List.replicate n 0⟩

/-- `DSU.find` (mutating path halving, so the updated parent array is
returned along with the root). -/
def DSU.find (d : DSU) (x : Nat) : Nat × DSU :=
  let r := findLoop d.parent.length d.parent x
  (r.1, ⟨r.2, d.rank⟩)

/-- `DSU.union` with union by rank. -/
def DSU.union (d : DSU) (a b : Nat) : DSU :=
  let fa := d.find a
  let fb := fa.2.find b
  let ra := fa.1
  let rb := fb.1
  let d2 := fb.2
  if ra = rb then d2
  else if d2.rank.getD ra 0 < d2.rank.getD rb 0 then ⟨d2.parent.set ra rb, d2.rank⟩
  else if d2.rank.getD rb 0 < d2.rank.getD ra 0 then ⟨d2.parent.set rb ra, d2.rank⟩
  else ⟨d2.parent.set rb ra, d2.rank.set ra (d2.rank.getD ra 0 + 1)⟩

/-- The union loop of `build_clusters`:
`for i in range(n): for j in neigh_ind[i]: if i != j: dsu.union(i, j)`,
presented as a fold over the edge list. -/
def unionPairs (d : DSU) (edges : List (Nat × Nat)) : DSU :=
  edges.foldl (fun d e => if e.1 ≠ e.2 then d.union e.1 e.2 else d) d

/-- The edge list traversed by the union loop. -/
def edgesOf (neigh : List (List Nat)) : List (Nat × Nat) :=
  (List.range neigh.length).flatMap (fun i => (neigh.getD i []).map (fun j => (i, j)))

/-- The grouping loop of `build_clusters`:
`for i in range(n): r = dsu.find(i); clusters.setdefault(r, []).append(i)`.
Returns the root key of each index (the mutated DSU is threaded through). -/
def clusterKeysLoop : List Nat → DSU → List Nat × DSU
  | [], d => ([], d)
  | i :: is, d =>
    let f := d.find i
    let r := clusterKeysLoop is f.2
    (f.1 :: r.1, r.2)

/-- `clusters.setdefault(r, []).append(i)` over an insertion-ordered
association list. -/
def insertGroup : List (Nat × List Nat) → Nat → Nat → List (Nat × List Nat)
  | [], k, i => [(k, [i])]
  | (k', ms) :: rest, k, i =>
    if k' = k then (k', ms ++ [i]) :: rest else (k', ms) :: insertGroup rest k i

/-- Group the indices `0, ..., keys.length - 1` by their root key,
preserving dictionary insertion order. -/
def groupByKey (keys : List Nat) : List (Nat × List Nat) :=
  keys.enum.foldl (fun acc p => insertGroup acc p.2 p.1) []

/-- The computable tail of `build_clusters` once the neighbor lists are
known: union every neighbor pair, then group indices by root. -/
def clusterAssign (neigh : List (List Nat)) (n : Nat) : List (Nat × List Nat) :=
  let d1 := unionPairs (dsuInit n) (edgesOf neigh)
  groupByKey (clusterKeysLoop (List.range n) d1).1

/-- The row normalization at the top of `build_clusters`: zero norms are
replaced by one before dividing (`norms[norms == 0.0] = 1.0`). -/
noncomputable def adjNorm (v : List ℚ) : ℝ :=
  if normQR v = 0 then 1 else normQR v

noncomputable def rowNormalize (embs : List (List ℚ)) : List (List ℝ) :=
  embs.map (fun v => v.map (fun x => (x : ℝ) / adjNorm v))

/-- The radius-neighbor query of `build_clusters`: for each row, every
row index whose cosine distance is within the radius `1 - threshold`
(scikit-learn's `radius_neighbors` includes the boundary). -/
noncomputable def neighLists (embs : List (List ℚ)) (threshold : ℚ) : List (List Nat) :=
  let E := rowNormalize embs
  (List.range embs.length).map (fun i =>
    (List.range embs.length).filter (fun j =>
      @decide (cosDistR (E.getD i []) (E.getD j []) ≤ ((1 - threshold : ℚ) : ℝ))
        (Classical.propDecidable _)))

/-- `build_clusters` of deduplicateApp.py.  An empty embedding matrix
returns the empty dictionary before any validation; otherwise the radius
`1 - threshold` is validated (`radius <= 0 or radius >= 2` raises
ValueError) and the clusters are computed. -/
noncomputable def build_clusters (embs : List (List ℚ)) (threshold : ℚ) :
    Except String (List (Nat × List Nat)) :=
  if embs.length = 0 then Except.ok []
  else if 1 - threshold ≤ 0 ∨ 2 ≤ 1 - threshold then
    Except.error "Threshold must be between -1 and 1. Typical range 0.85 to 0.97"
  else Except.ok (clusterAssign (neighLists embs threshold) embs.length)

/-- The row filter at the top of deduplicateApp.main: pair each row with
its normalized text and drop the rows whose normalization is empty. -/
def keptRows (rows : List (List Char)) : List (List Char × List Char) :=
  (rows.map (fun r => (r, normalize_text r))).filter (fun rn => !rn.2.isEmpty)

/-- The texts embedded by deduplicateApp.main: the raw text column of the
exact-collapse bucket heads. -/
def repTextsOf (rows : List (List Char)) : List (List Char) :=
  (exactReps ((keptRows rows).map Prod.snd)).map
    (fun i => ((keptRows rows).map Prod.fst).getD i [])

/-- The run of deduplicateApp.main from the loaded rows to the filtered
output rows: filter empty rows, pre-collapse exact duplicates, embed the
bucket-head texts, cluster, expand clusters back through the buckets,
choose one representative per cluster, and emit the kept rows.  A raised
provider or configuration error aborts the run before any output exists. -/
noncomputable def runDedup (provider : List (List Char) → Except String (List (List ℚ)))
    (rows : List (List Char)) (threshold : ℚ) (strategy : String) (batchSize : Nat) :
    Except String (List (List Char)) :=
  let kept := keptRows rows
  if kept.length = 0 then Except.ok []
  else
    let texts := kept.map Prod.fst
    let norms := kept.map Prod.snd
    let reps := exactReps norms
    match embed_texts provider (repTextsOf rows) batchSize with
    | Except.error e => Except.error e
    | Except.ok embs =>
      match build_clusters embs threshold with
      | Except.error e => Except.error e
      | Except.ok clusters =>
        let keptIdx := clusters.foldr (fun rm acc =>
          let expanded := sortedSet
            ((rm.2.map (fun m => reps.getD m 0)).flatMap (fun g => groupMembers norms g))
            texts.length
          choose_representative expanded texts strategy :: acc) []
        Except.ok ((sortedSet keptIdx texts.length).map (fun i => texts.getD i []))

end DedupApp

namespace Deduplication

/-- Normal-form checker for `collapseHT` output: no tab anywhere and no
two adjacent horizontal-whitespace characters.  The boolean is true when
the previous character was horizontal whitespace. -/
def htOK : Bool → List Char → Bool
  | _, [] => true
  | inRun, c :: rest =>
    if isHT c then !inRun && !(c = '\t') && htOK true rest
    else htOK false rest

/-- Normal-form checker for `collapseNL` output: every maximal newline
run has length at most two.  The counter is the length of the current
newline run. -/
def nlOK : Nat → List Char → Bool
  | k, [] => decide (k ≤ 2)
  | k, c :: rest =>
    if c = '\n' then nlOK (k + 1) rest
    else decide (k ≤ 2) && nlOK 0 rest

/-- The non-whitespace characters of a string, in order.  Chunk
reconstruction is stated modulo whitespace through this projection. -/
def nonWS (l : List Char) : List Char :=
  l.filter (fun c => !isPySpace c)

end Deduplication

namespace DedupApp

/-- `x` is a root of the parent forest. -/
def IsRootP (p : List Nat) (x : Nat) : Prop :=
  pf p x = x

/-- The parent chain from `x` reaches the root `r` in finitely many steps. -/
def Reaches (p : List Nat) (x r : Nat) : Prop :=
  ∃ k, (pf p)^[k] x = r ∧ IsRootP p r

/-- Acyclicity: every node reaches some root. -/
def WFa (p : List Nat) : Prop :=
  ∀ x, ∃ r, Reaches p x r

/-- Range closure: every stored parent index is in range. -/
def WFr (p : List Nat) : Prop :=
  ∀ v ∈ p, v < p.length

/-- Two nodes reach a common root. -/
def sameRoot (p : List Nat) (x y : Nat) : Prop :=
  ∃ r, Reaches p x r ∧ Reaches p y r

instance (p : List Nat) (x : Nat) : Decidable (IsRootP p x) :=
  Nat.decEq (pf p x) x

end DedupApp

/-! ## Basic facts about the stable descending sort -/

theorem mem_insertDescBy {α β : Type} [LinearOrder β] (key : α → β) (x a : α) :
    ∀ l : List α, a ∈ Deduplication.insertDescBy key x l ↔ a = x ∨ a ∈ l
  | [] => by simp [Deduplication.insertDescBy]
  | y :: ys => by
    simp only [Deduplication.insertDescBy]
    by_cases h : key y ≤ key x
    · simp [h]
    · simp only [h, if_false, List.mem_cons, mem_insertDescBy key x a ys]
      tauto

theorem mem_sortDescBy {α β : Type} [LinearOrder β] (key : α → β) (a : α) :
    ∀ l : List α, a ∈ Deduplication.sortDescBy key l ↔ a ∈ l
  | [] => Iff.rfl
  | x :: xs => by
    simp [Deduplication.sortDescBy, mem_insertDescBy, mem_sortDescBy key a xs]

theorem length_insertDescBy {α β : Type} [LinearOrder β] (key : α → β) (x : α) :
    ∀ l : List α, (Deduplication.insertDescBy key x l).length = l.length + 1
  | [] => rfl
  | y :: ys => by
    simp only [Deduplication.insertDescBy]
    by_cases h : key y ≤ key x
    · simp [h]
    · simp [h, length_insertDescBy key x ys]

theorem length_sortDescBy {α β : Type} [LinearOrder β] (key : α → β) :
    ∀ l : List α, (Deduplication.sortDescBy key l).length = l.length
  | [] => rfl
  | x :: xs => by
    simp [Deduplication.sortDescBy, length_insertDescBy, length_sortDescBy key xs]

/-- The head of the stable descending sort is the first element of the
original list attaining the maximal key: it dominates every element, and
everything before it in the original list is strictly smaller. -/
theorem headD_sortDescBy_spec {α β : Type} [LinearOrder β] (key : α → β) (dflt : α) :
    ∀ l : List α, l ≠ [] →
      ∃ x pre post, (Deduplication.sortDescBy key l).headD dflt = x
        ∧ l = pre ++ x :: post
        ∧ (∀ p ∈ pre, key p < key x)
        ∧ (∀ p ∈ l, key p ≤ key x)
  | [], h => absurd rfl h
  | x :: xs, _ => by
    match hxs : xs with
    | [] => exact ⟨x, [], [], rfl, rfl, by simp, by simp⟩
    | y :: ys =>
      obtain ⟨z, pre', post', hhead, hdec, hpre, hall⟩ :=
        headD_sortDescBy_spec key dflt (y :: ys) (by simp)
      have hne : Deduplication.sortDescBy key (y :: ys) ≠ [] := by
        intro h
        have := length_sortDescBy key (y :: ys)
        rw [h] at this
        simp at this
      have hstep : Deduplication.sortDescBy key (x :: y :: ys)
          = Deduplication.insertDescBy key x (Deduplication.sortDescBy key (y :: ys)) := rfl
      cases hs2 : Deduplication.sortDescBy key (y :: ys) with
      | nil => exact absurd hs2 hne
      | cons h t =>
        have hh : h = z := by rw [hs2] at hhead; simpa using hhead
        subst hh
        rw [hstep, hs2]
        simp only [Deduplication.insertDescBy]
        by_cases hcmp : key h ≤ key x
        · refine ⟨x, [], y :: ys, by simp [hcmp], rfl, by simp, ?_⟩
          intro p hp
          rcases List.mem_cons.mp hp with rfl | hp
          · exact le_refl _
          · exact le_trans (hall p hp) hcmp
        · refine ⟨h, x :: pre', post', by simp [hcmp], by rw [hdec]; rfl, ?_, ?_⟩
          · intro p hp
            rcases List.mem_cons.mp hp with rfl | hp
            · exact lt_of_not_le hcmp
            · exact hpre p hp
          · intro p hp
            rcases List.mem_cons.mp hp with rfl | hp
            · exact le_of_lt (lt_of_not_le hcmp)
            · exact hall p hp

/-! ## C1: the chunker performs no chunk_size/overlap validation -/

/-- C1: the claim states that every invocation of the chunker with
`chunk_size <= overlap` raises a configuration error before producing any
chunk output.  The source contains no such check: with `chunk_size = 2`
and `overlap = 5` on the paragraphs `abc`, `de` the chunker runs to
completion and returns three chunks (with degenerate, fully-overlapping
tails), so the configuration is accepted, contradicting the claim. -/
theorem c1_chunker_accepts_chunk_size_le_overlap :
    Deduplication.chunk_paragraphs ["abc".toList, "de".toList] 2 5
      = ["ab".toList, "ab\n\nc".toList, "ab\n\nc\n\nde".toList] ∧ (2 : Nat) ≤ 5 := by
  constructor
  · rfl
  · decide

/-! ## C4: OR semantics of the pairwise flag -/

/-- C4: a pair lands in the flagged list of the report loop exactly when
it occurs among the scored pairs and `doc_sim >= threshold` or
`max_chunk_sim >= threshold`; in particular `doc_sim = 0.95`,
`max_chunk_sim = 0.2` is flagged at threshold `0.9`. -/
theorem c4_flag_or_semantics :
    (∀ (pairs : List Deduplication.ScoredPair) (t : ℚ) (A B : String) (d m : ℚ),
      (A, B, d, m) ∈ Deduplication.flaggedPairs pairs t
        ↔ ((A, B, d, m) ∈ pairs ∧ (d ≥ t ∨ m ≥ t)))
    ∧ Deduplication.is_flag (95 / 100) (2 / 10) (9 / 10) = true := by
  constructor
  · intro pairs t A B d m
    unfold Deduplication.flaggedPairs
    rw [List.mem_filter, mem_sortDescBy]
    simp [Deduplication.is_flag]
  · simp only [Deduplication.is_flag, Bool.or_eq_true, decide_eq_true_eq]
    left
    norm_num

/-! ## C2: representative selection under the longest policy -/

/-- C2 counterexample: the claim says the `longest` policy selects the
member whose normalized text has maximal length.  The pipeline passes the
raw text column to `choose_representative`, which compares raw lengths:
with texts `"ab   "` (raw length 5, normalized length 2) and `"abc"`
(raw length 3, normalized length 3) the code returns index 0, although
index 1 has the strictly longer normalized text. -/
theorem c2_counterexample :
    DedupApp.choose_representative [0, 1] ["ab   ".toList, "abc".toList] "longest" = 0
    ∧ (DedupApp.normalize_text ("ab   ".toList)).length
        < (DedupApp.normalize_text ("abc".toList)).length := by
  constructor
  · rfl
  · decide

/-- C2 (amended): for a non-empty, strictly increasing cluster index list
(as produced by `main`, which sorts every cluster), the `longest` policy
returns a member whose text, as passed (the raw text column), has maximal
length, and among members tying on that maximal length it returns the
lowest index. -/
theorem c2_longest_representative (indices : List Nat) (texts : List (List Char))
    (h1 : indices ≠ []) (h2 : indices.Pairwise (· < ·)) :
    DedupApp.choose_representative indices texts "longest" ∈ indices
    ∧ (∀ j ∈ indices, (texts.getD j []).length
        ≤ (texts.getD (DedupApp.choose_representative indices texts "longest") []).length)
    ∧ (∀ j ∈ indices, (texts.getD j []).length
        = (texts.getD (DedupApp.choose_representative indices texts "longest") []).length
        → DedupApp.choose_representative indices texts "longest" ≤ j) := by
  have hmap : indices.map (fun i => (i, (texts.getD i []).length)) ≠ [] := by
    simpa using h1
  obtain ⟨x, preP, postP, hhead, hdec, hpre, hall⟩ :=
    headD_sortDescBy_spec (fun p : Nat × Nat => p.2) (0, 0) _ hmap
  obtain ⟨l₁, l₂, hsplit, hm1, hm2⟩ := List.map_eq_append_iff.mp hdec
  obtain ⟨i, l₂', rfl, hfi, hmap2⟩ := List.map_eq_cons_iff.mp hm2
  have hrep : DedupApp.choose_representative indices texts "longest" = x.1 := by
    unfold DedupApp.choose_representative
    rw [if_pos rfl, hhead]
  have hx1 : x.1 = i := by rw [← hfi]
  have hx2 : x.2 = (texts.getD i []).length := by rw [← hfi]
  refine ⟨?_, ?_, ?_⟩
  · rw [hrep, hx1, hsplit]
    exact List.mem_append.mpr (Or.inr (List.mem_cons_self i l₂'))
  · intro j hj
    have := hall _ (List.mem_map_of_mem (fun i => (i, (texts.getD i []).length)) hj)
    rw [hrep, hx1, ← hx2]
    exact this
  · intro j hj hlen
    rw [hrep, hx1]
    rw [hsplit] at hj h2
    rcases List.mem_append.mp hj with hj1 | hj2
    · exfalso
      have := hpre _ (by rw [← hm1]; exact List.mem_map_of_mem _ hj1)
      rw [hx2] at this
      rw [hrep, hx1] at hlen
      omega
    · rcases List.mem_cons.mp hj2 with rfl | hj3
      · exact le_refl _
      · have hcross := (List.pairwise_cons.mp (List.pairwise_append.mp h2).2.1).1
        exact le_of_lt (hcross j hj3)

/-! ## C7: idempotence of the exact-duplicate pre-collapse -/

theorem map_getD_range {α : Type} (d : α) :
    ∀ l : List α, (List.range l.length).map (fun i => l.getD i d) = l
  | [] => rfl
  | a :: l => by
    rw [List.length_cons, List.range_succ_eq_map, List.map_cons, List.map_map]
    refine congrArg₂ _ rfl ?_
    have : ((fun i => (a :: l).getD i d) ∘ Nat.succ) = fun i => l.getD i d := by
      funext i
      simp [List.getD_cons_succ]
    rw [this, map_getD_range d l]

theorem range_filter_eq_of_lt (i n : Nat) (h : i < n) :
    (List.range n).filter (fun k => decide (k = i)) = [i] := by
  induction n with
  | zero => omega
  | succ n ih =>
    rw [List.range_succ, List.filter_append]
    by_cases hi : i = n
    · subst hi
      have : (List.range i).filter (fun k => decide (k = i)) = [] := by
        rw [List.filter_eq_nil_iff]
        intro a ha
        have := List.mem_range.mp ha
        simp only [decide_eq_true_eq]
        omega
      simp [this]
    · have hlt : i < n := by omega
      rw [ih hlt]
      simp
      omega

theorem firstIdxOf_congr (l : List (List Char)) (i j : Nat)
    (h : l.getD i [] = l.getD j []) :
    DedupApp.firstIdxOf l i = DedupApp.firstIdxOf l j := by
  unfold DedupApp.firstIdxOf
  rw [show (fun k => decide (l.getD k [] = l.getD i []))
      = (fun k => decide (l.getD k [] = l.getD j [])) by funext k; rw [h]]

theorem firstIdxOf_of_nodup (l : List (List Char)) (hnd : l.Nodup) (i : Nat)
    (hi : i < l.length) : DedupApp.firstIdxOf l i = i := by
  unfold DedupApp.firstIdxOf
  have hfind : (List.range l.length).find? (fun j => decide (l.getD j [] = l.getD i [])) = some i := by
    rw [List.find?_eq_some]
    refine ⟨by simp, List.range i, (List.range l.length).drop (i + 1), ?_, ?_⟩
    · conv_lhs => rw [← List.take_append_drop (i + 1) (List.range l.length)]
      rw [List.take_range]
      have hmin : min (i + 1) l.length = i + 1 := by omega
      rw [hmin, List.range_succ]
      simp
    · intro a ha
      have halt : a < i := List.mem_range.mp ha
      simp only [Bool.not_eq_eq_eq_not, Bool.not_true, decide_eq_false_iff_not]
      intro heq
      have h1 : l.getD a [] = l[a] := List.getD_eq_getElem l [] (by omega)
      have h2 : l.getD i [] = l[i] := List.getD_eq_getElem l [] hi
      rw [h1, h2] at heq
      have := (List.Nodup.getElem_inj_iff hnd).mp heq
      omega
  rw [hfind]
  rfl

theorem nodup_collapseExact (l : List (List Char)) :
    (DedupApp.collapseExact l).Nodup := by
  unfold DedupApp.collapseExact
  refine List.Nodup.map_on ?_ (List.Nodup.filter _ (List.nodup_range _))
  intro i hi j hj hij
  have hi2 := (List.mem_filter.mp hi).2
  have hj2 := (List.mem_filter.mp hj).2
  simp only [decide_eq_true_eq] at hi2 hj2
  calc i = DedupApp.firstIdxOf l i := hi2.symm
    _ = DedupApp.firstIdxOf l j := firstIdxOf_congr l i j hij
    _ = j := hj2

theorem collapseExact_of_nodup (l : List (List Char)) (hnd : l.Nodup) :
    DedupApp.collapseExact l = l := by
  unfold DedupApp.collapseExact DedupApp.exactReps
  have hfilter : (List.range l.length).filter (fun i => decide (DedupApp.firstIdxOf l i = i))
      = List.range l.length := by
    rw [List.filter_eq_self]
    intro i hi
    simp [firstIdxOf_of_nodup l hnd i (List.mem_range.mp hi)]
  rw [hfilter, map_getD_range]

/-- C7: the exact-duplicate pre-collapse is idempotent, and on its output
every bucket is a singleton: re-grouping the collapsed texts puts each
row index alone in its own bucket. -/
theorem c7_collapse_idempotent (texts : List (List Char)) :
    DedupApp.collapseExact (DedupApp.collapseExact texts) = DedupApp.collapseExact texts
    ∧ (List.range (DedupApp.collapseExact texts).length).map
        (DedupApp.groupMembers (DedupApp.collapseExact texts))
      = (List.range (DedupApp.collapseExact texts).length).map (fun i => [i]) := by
  have hnd := nodup_collapseExact texts
  constructor
  · exact collapseExact_of_nodup _ hnd
  · refine List.map_congr_left ?_
    intro i hi
    have hi2 := List.mem_range.mp hi
    unfold DedupApp.groupMembers
    have : (fun k => decide (DedupApp.firstIdxOf (DedupApp.collapseExact texts) k = i))
        = fun k =>
          if k < (DedupApp.collapseExact texts).length then decide (k = i) else decide (DedupApp.firstIdxOf (DedupApp.collapseExact texts) k = i) := by
      funext k
      by_cases hk : k < (DedupApp.collapseExact texts).length
      · simp only [if_pos hk]
        rw [firstIdxOf_of_nodup _ hnd k hk]
      · simp [if_neg hk]
    rw [List.filter_congr (fun k hk => ?_), range_filter_eq_of_lt i _ hi2]
    have hk2 := List.mem_range.mp hk
    rw [firstIdxOf_of_nodup _ hnd k hk2]

/-! ## C10, tabular side: idempotence of the deduplicateApp normalizer -/

theorem toLower_idem (c : Char) : Char.toLower (Char.toLower c) = Char.toLower c := by
  show Char.toLower (if c.toNat ≥ 65 ∧ c.toNat ≤ 90 then Char.ofNat (c.toNat + 32) else c)
      = Char.toLower c
  by_cases h : c.toNat ≥ 65 ∧ c.toNat ≤ 90
  · rw [if_pos h]
    have hv : (c.toNat + 32).isValidChar := Or.inl (by omega)
    have ht : (Char.ofNat (c.toNat + 32)).toNat = c.toNat + 32 := by
      rw [Char.ofNat, dif_pos hv]
      rfl
    show (if _ ∧ _ then _ else _) = _
    rw [if_neg (by rw [ht]; omega), Char.toLower, if_pos h]
  · rw [if_neg h]

theorem pySplitAux_tokens (l : List Char) :
    ∀ tok, (∀ c ∈ tok, Deduplication.isPySpace c = false) →
      ∀ t ∈ DedupApp.pySplitAux tok l, t ≠ [] ∧ ∀ c ∈ t, Deduplication.isPySpace c = false := by
  induction l with
  | nil =>
    intro tok htok t ht
    simp only [DedupApp.pySplitAux] at ht
    by_cases he : tok.isEmpty
    · simp [he] at ht
    · rw [if_neg he] at ht
      rcases List.mem_singleton.mp ht with rfl
      exact ⟨fun h => he (by simp [h]), htok⟩
  | cons c rest ih =>
    intro tok htok t ht
    simp only [DedupApp.pySplitAux] at ht
    by_cases hws : Deduplication.isPySpace c
    · rw [if_pos hws] at ht
      by_cases he : tok.isEmpty
      · rw [if_pos he] at ht
        exact ih [] (by simp) t ht
      · rw [if_neg he] at ht
        rcases List.mem_cons.mp ht with rfl | ht2
        · exact ⟨fun h => he (by simp [h]), htok⟩
        · exact ih [] (by simp) t ht2
    · rw [if_neg hws] at ht
      refine ih (tok ++ [c]) ?_ t ht
      intro d hd
      rcases List.mem_append.mp hd with hd1 | hd2
      · exact htok d hd1
      · rw [List.mem_singleton.mp hd2]
        exact Bool.not_eq_true _ ▸ (by simpa using hws)

theorem pySplitAux_chars (l : List Char) :
    ∀ tok t, t ∈ DedupApp.pySplitAux tok l → ∀ c ∈ t, c ∈ tok ∨ c ∈ l := by
  induction l with
  | nil =>
    intro tok t ht c hc
    simp only [DedupApp.pySplitAux] at ht
    by_cases he : tok.isEmpty
    · simp [he] at ht
    · rw [if_neg he] at ht
      rcases List.mem_singleton.mp ht with rfl
      exact Or.inl hc
  | cons a rest ih =>
    intro tok t ht c hc
    simp only [DedupApp.pySplitAux] at ht
    by_cases hws : Deduplication.isPySpace a
    · rw [if_pos hws] at ht
      by_cases he : tok.isEmpty
      · rw [if_pos he] at ht
        rcases ih [] t ht c hc with h | h
        · simp at h
        · exact Or.inr (List.mem_cons_of_mem a h)
      · rw [if_neg he] at ht
        rcases List.mem_cons.mp ht with rfl | ht2
        · exact Or.inl hc
        · rcases ih [] t ht2 c hc with h | h
          · simp at h
          · exact Or.inr (List.mem_cons_of_mem a h)
    · rw [if_neg hws] at ht
      rcases ih (tok ++ [a]) t ht c hc with h | h
      · rcases List.mem_append.mp h with h1 | h2
        · exact Or.inl h1
        · rw [List.mem_singleton.mp h2]
          exact Or.inr (List.mem_cons_self a rest)
      · exact Or.inr (List.mem_cons_of_mem a h)

theorem pySplitAux_append_token (t : List Char) :
    ∀ tok rest, (∀ c ∈ t, Deduplication.isPySpace c = false) →
      DedupApp.pySplitAux tok (t ++ rest) = DedupApp.pySplitAux (tok ++ t) rest := by
  induction t with
  | nil => intro tok rest _; simp
  | cons c cs ih =>
    intro tok rest h
    have hc : Deduplication.isPySpace c = false := h c (List.mem_cons_self c cs)
    simp only [List.cons_append, DedupApp.pySplitAux, hc, Bool.false_eq_true, if_false,
      List.append_eq]
    rw [ih (tok ++ [c]) rest (fun d hd => h d (List.mem_cons_of_mem c hd))]
    simp

theorem joinSpace_chars (T : List (List Char)) :
    ∀ c ∈ DedupApp.joinSpace T, c = ' ' ∨ ∃ t ∈ T, c ∈ t := by
  match T with
  | [] => intro c hc; simp [DedupApp.joinSpace] at hc
  | [t] =>
    intro c hc
    exact Or.inr ⟨t, List.mem_singleton.mpr rfl, hc⟩
  | t :: u :: ts =>
    intro c hc
    simp only [DedupApp.joinSpace] at hc
    rcases List.mem_append.mp hc with h1 | h2
    · exact Or.inr ⟨t, List.mem_cons_self _ _, h1⟩
    · rcases List.mem_cons.mp h2 with rfl | h3
      · exact Or.inl rfl
      · rcases joinSpace_chars (u :: ts) c h3 with h | ⟨v, hv, hcv⟩
        · exact Or.inl h
        · exact Or.inr ⟨v, List.mem_cons_of_mem t hv, hcv⟩

theorem pySplit_joinSpace (T : List (List Char))
    (h : ∀ t ∈ T, t ≠ [] ∧ ∀ c ∈ t, Deduplication.isPySpace c = false) :
    DedupApp.pySplit (DedupApp.joinSpace T) = T := by
  match T with
  | [] => rfl
  | [t] =>
    obtain ⟨hne, hws⟩ := h t (List.mem_singleton.mpr rfl)
    show DedupApp.pySplitAux [] (DedupApp.joinSpace [t]) = [t]
    have : DedupApp.joinSpace [t] = t ++ [] := by simp [DedupApp.joinSpace]
    rw [this, pySplitAux_append_token t [] [] hws]
    simp only [List.nil_append, DedupApp.pySplitAux]
    rw [if_neg (by simpa using hne)]
  | t :: u :: ts =>
    obtain ⟨hne, hws⟩ := h t (List.mem_cons_self _ _)
    have hrec := pySplit_joinSpace (u :: ts) (fun v hv => h v (List.mem_cons_of_mem t hv))
    show DedupApp.pySplitAux [] (DedupApp.joinSpace (t :: u :: ts)) = t :: u :: ts
    have hj : DedupApp.joinSpace (t :: u :: ts) = t ++ ' ' :: DedupApp.joinSpace (u :: ts) := rfl
    rw [hj, pySplitAux_append_token t [] (' ' :: DedupApp.joinSpace (u :: ts)) hws]
    simp only [List.nil_append, DedupApp.pySplitAux]
    rw [if_pos (by decide)]
    rw [if_neg (by simpa using hne)]
    exact congrArg _ hrec

theorem last_char_joinSpace (T : List (List Char))
    (h : ∀ t ∈ T, t ≠ [] ∧ ∀ c ∈ t, Deduplication.isPySpace c = false) (hT : T ≠ []) :
    ∃ pre2 c, DedupApp.joinSpace T = pre2 ++ [c] ∧ Deduplication.isPySpace c = false := by
  match T with
  | [t] =>
    obtain ⟨hne, hws⟩ := h t (List.mem_singleton.mpr rfl)
    rcases List.eq_nil_or_concat t with rfl | ⟨q, c, rfl⟩
    · exact absurd rfl hne
    · exact ⟨q, c, by simp [DedupApp.joinSpace], hws c (by simp)⟩
  | t :: u :: ts =>
    obtain ⟨pre2, c, hjoin, hc⟩ :=
      last_char_joinSpace (u :: ts) (fun v hv => h v (List.mem_cons_of_mem t hv)) (by simp)
    refine ⟨t ++ ' ' :: pre2, c, ?_, hc⟩
    show t ++ ' ' :: DedupApp.joinSpace (u :: ts) = (t ++ ' ' :: pre2) ++ [c]
    rw [hjoin]
    simp

theorem stripPy_joinSpace (T : List (List Char))
    (h : ∀ t ∈ T, t ≠ [] ∧ ∀ c ∈ t, Deduplication.isPySpace c = false) :
    Deduplication.stripPy (DedupApp.joinSpace T) = DedupApp.joinSpace T := by
  match T with
  | [] => rfl
  | t :: ts =>
    obtain ⟨hne, hws⟩ := h t (List.mem_cons_self _ _)
    obtain ⟨c, cs, rfl⟩ := List.exists_cons_of_ne_nil hne
    have hc : Deduplication.isPySpace c = false := hws c (List.mem_cons_self _ _)
    have hhead : ∃ z, DedupApp.joinSpace ((c :: cs) :: ts) = c :: z := by
      match ts with
      | [] => exact ⟨cs, rfl⟩
      | u :: us => exact ⟨cs ++ ' ' :: DedupApp.joinSpace (u :: us), rfl⟩
    obtain ⟨z, hz⟩ := hhead
    obtain ⟨pre2, d, hjoin, hd⟩ := last_char_joinSpace ((c :: cs) :: ts) h (by simp)
    unfold Deduplication.stripPy
    rw [hz, List.dropWhile_cons_of_neg (by simp [hc]), ← hz, hjoin]
    have h2 : (pre2 ++ [d]).reverse = d :: pre2.reverse := by simp
    rw [h2, List.dropWhile_cons_of_neg (by simp [hd])]
    simp

/-- Idempotence of the tabular normalizer of deduplicateApp.py. -/
theorem tab_normalize_idem (s : List Char) :
    DedupApp.normalize_text (DedupApp.normalize_text s) = DedupApp.normalize_text s := by
  unfold DedupApp.normalize_text
  set T := DedupApp.pySplit (DedupApp.lowerPy (Deduplication.stripPy s)) with hT
  have htoks : ∀ t ∈ T, t ≠ [] ∧ ∀ c ∈ t, Deduplication.isPySpace c = false :=
    pySplitAux_tokens _ [] (by simp)
  have hchars : ∀ t ∈ T, ∀ c ∈ t, c ∈ DedupApp.lowerPy (Deduplication.stripPy s) := by
    intro t ht c hc
    rcases pySplitAux_chars _ [] t ht c hc with h | h
    · simp at h
    · exact h
  have hstrip : Deduplication.stripPy (DedupApp.joinSpace T) = DedupApp.joinSpace T :=
    stripPy_joinSpace T htoks
  have hlower : DedupApp.lowerPy (DedupApp.joinSpace T) = DedupApp.joinSpace T := by
    unfold DedupApp.lowerPy
    have : ∀ c ∈ DedupApp.joinSpace T, Char.toLower c = c := by
      intro c hc
      rcases joinSpace_chars T c hc with rfl | ⟨t, ht, hct⟩
      · rfl
      · have := hchars t ht c hct
        unfold DedupApp.lowerPy at this
        obtain ⟨d, _, rfl⟩ := List.mem_map.mp this
        exact toLower_idem d
    calc (DedupApp.joinSpace T).map Char.toLower
        = (DedupApp.joinSpace T).map id := List.map_congr_left this
      _ = DedupApp.joinSpace T := List.map_id _
  rw [hstrip, hlower, pySplit_joinSpace T htoks]

/-! ## C10, document side: idempotence of the Deduplication normalizer -/

theorem mem_collapseHTAux (l : List Char) :
    ∀ b c, c ∈ Deduplication.collapseHTAux b l → c = ' ' ∨ c ∈ l := by
  induction l with
  | nil => intro b c hc; simp [Deduplication.collapseHTAux] at hc
  | cons a rest ih =>
    intro b c hc
    simp only [Deduplication.collapseHTAux] at hc
    by_cases ha : Deduplication.isHT a
    · rw [if_pos ha] at hc
      by_cases hb : b
      · subst hb
        rw [if_pos rfl] at hc
        rcases ih true c hc with h | h
        · exact Or.inl h
        · exact Or.inr (List.mem_cons_of_mem a h)
      · simp only [Bool.not_eq_true] at hb
        subst hb
        rw [if_neg (by simp)] at hc
        rcases List.mem_cons.mp hc with rfl | hc2
        · exact Or.inl rfl
        · rcases ih true c hc2 with h | h
          · exact Or.inl h
          · exact Or.inr (List.mem_cons_of_mem a h)
    · rw [if_neg ha] at hc
      rcases List.mem_cons.mp hc with rfl | hc2
      · exact Or.inr (List.mem_cons_self _ _)
      · rcases ih false c hc2 with h | h
        · exact Or.inl h
        · exact Or.inr (List.mem_cons_of_mem a h)

theorem mem_emitNL (k : Nat) (c : Char) (hc : c ∈ Deduplication.emitNL k) : c = '\n' := by
  unfold Deduplication.emitNL at hc
  by_cases h3 : 3 ≤ k
  · rw [if_pos h3] at hc
    rcases List.mem_cons.mp hc with rfl | hc2
    · rfl
    · simpa using hc2
  · rw [if_neg h3] at hc
    exact List.eq_of_mem_replicate hc

theorem mem_collapseNLAux (l : List Char) :
    ∀ k c, c ∈ Deduplication.collapseNLAux k l → c = '\n' ∨ c ∈ l := by
  induction l with
  | nil => intro k c hc; exact Or.inl (mem_emitNL k c hc)
  | cons a rest ih =>
    intro k c hc
    simp only [Deduplication.collapseNLAux] at hc
    by_cases ha : a = '\n'
    · rw [if_pos ha] at hc
      rcases ih (k + 1) c hc with h | h
      · exact Or.inl h
      · exact Or.inr (List.mem_cons_of_mem a h)
    · rw [if_neg ha] at hc
      rcases List.mem_append.mp hc with h | h
      · exact Or.inl (mem_emitNL k c h)
      · rcases List.mem_cons.mp h with rfl | h2
        · exact Or.inr (List.mem_cons_self _ _)
        · rcases ih 0 c h2 with h3 | h3
          · exact Or.inl h3
          · exact Or.inr (List.mem_cons_of_mem a h3)

theorem mem_stripPy (l : List Char) (c : Char) (hc : c ∈ Deduplication.stripPy l) : c ∈ l := by
  unfold Deduplication.stripPy at hc
  rw [List.mem_reverse] at hc
  have h1 := (List.dropWhile_sublist _).mem hc
  rw [List.mem_reverse] at h1
  exact (List.dropWhile_sublist _).mem h1

theorem replaceCR_eq_self (l : List Char) (h : '\r' ∉ l) :
    Deduplication.replaceCR l = l := by
  unfold Deduplication.replaceCR
  calc l.map (fun c => if c = '\r' then '\n' else c)
      = l.map id := by
        refine List.map_congr_left ?_
        intro a ha
        have : a ≠ '\r' := fun he => h (he ▸ ha)
        simp [this]
    _ = l := List.map_id _

theorem not_cr_replaceCR (l : List Char) : '\r' ∉ Deduplication.replaceCR l := by
  unfold Deduplication.replaceCR
  intro h
  obtain ⟨d, _, hd⟩ := List.mem_map.mp h
  by_cases hc : d = '\r'
  · rw [if_pos hc] at hd
    exact absurd hd (by decide)
  · rw [if_neg hc] at hd
    exact hc hd

/-! Facts about the `htOK` checker. -/

theorem htOK_head_indep (b : Bool) (c : Char) (rest : List Char)
    (hc : Deduplication.isHT c = false) :
    Deduplication.htOK b (c :: rest) = Deduplication.htOK false rest := by
  simp [Deduplication.htOK, hc]

theorem htOK_mono (l : List Char) (h : Deduplication.htOK true l = true) :
    Deduplication.htOK false l = true := by
  cases l with
  | nil => rfl
  | cons c rest =>
    by_cases hc : Deduplication.isHT c
    · simp [Deduplication.htOK, hc] at h
    · rw [htOK_head_indep _ _ _ (by simpa using hc)] at h ⊢
      exact h

theorem htOK_tail (b : Bool) (c : Char) (rest : List Char)
    (h : Deduplication.htOK b (c :: rest) = true) :
    Deduplication.htOK false rest = true := by
  by_cases hc : Deduplication.isHT c
  · simp only [Deduplication.htOK, hc, if_true, Bool.and_eq_true] at h
    exact htOK_mono rest h.2
  · rw [htOK_head_indep _ _ _ (by simpa using hc)] at h
    exact h

theorem htOK_collapseHTAux (l : List Char) :
    ∀ b, Deduplication.htOK b (Deduplication.collapseHTAux b l) = true := by
  induction l with
  | nil => intro b; rfl
  | cons c rest ih =>
    intro b
    simp only [Deduplication.collapseHTAux]
    by_cases hc : Deduplication.isHT c
    · rw [if_pos hc]
      cases b with
      | true => simpa using ih true
      | false =>
        rw [if_neg (by simp)]
        simpa [Deduplication.htOK] using ih true
    · rw [if_neg hc]
      rw [htOK_head_indep _ _ _ (by simpa using hc)]
      exact ih false

theorem collapseHTAux_eq_self (l : List Char) :
    ∀ b, Deduplication.htOK b l = true → Deduplication.collapseHTAux b l = l := by
  induction l with
  | nil => intro b _; rfl
  | cons c rest ih =>
    intro b h
    simp only [Deduplication.collapseHTAux]
    by_cases hc : Deduplication.isHT c
    · simp only [Deduplication.htOK, hc, if_true, Bool.and_eq_true] at h
      obtain ⟨⟨hb, htab⟩, hrest⟩ := h
      have hb2 : b = false := by
        cases b
        · rfl
        · simp at hb
      subst hb2
      rw [if_pos hc, if_neg (by simp)]
      have hcsp : c = ' ' := by
        have h1 : (c = ' ' || c = '\t') = true := hc
        rcases Bool.or_eq_true_iff.mp h1 with h2 | h2
        · exact decide_eq_true_eq.mp h2
        · exact absurd (decide_eq_true_eq.mp h2) (by simpa using htab)
      rw [← hcsp, ih true hrest]
    · rw [if_neg hc]
      have h2 : Deduplication.htOK false rest = true := by
        rw [htOK_head_indep _ _ _ (by simpa using hc)] at h
        exact h
      rw [ih false h2]

theorem htOK_chain (l : List Char) :
    ∀ b, Deduplication.htOK b l = true →
      '\t' ∉ l ∧ List.Chain' (fun a c =>
        ¬(Deduplication.isHT a = true ∧ Deduplication.isHT c = true)) l := by
  induction l with
  | nil => intro b _; exact ⟨by simp, List.chain'_nil⟩
  | cons c rest ih =>
    intro b h
    by_cases hc : Deduplication.isHT c
    · simp only [Deduplication.htOK, hc, if_true, Bool.and_eq_true] at h
      obtain ⟨⟨_, htab⟩, hrest⟩ := h
      obtain ⟨hmem, hchain⟩ := ih true hrest
      refine ⟨?_, ?_⟩
      · intro hm
        rcases List.mem_cons.mp hm with he | hm2
        · exact absurd he.symm (by simpa using htab)
        · exact hmem hm2
      · rw [List.chain'_cons']
        refine ⟨?_, hchain⟩
        intro y hy
        cases rest with
        | nil => simp at hy
        | cons d rest2 =>
          have hyd : d = y := by simpa using hy
          subst hyd
          intro ⟨_, hd⟩
          simp [Deduplication.htOK, hd] at hrest
    · rw [htOK_head_indep _ _ _ (by simpa using hc)] at h
      obtain ⟨hmem, hchain⟩ := ih false h
      refine ⟨?_, ?_⟩
      · intro hm
        rcases List.mem_cons.mp hm with he | hm2
        · exact hc (by rw [← he]; decide)
        · exact hmem hm2
      · rw [List.chain'_cons']
        exact ⟨fun y _ hcon => hc hcon.1, hchain⟩

theorem htOK_of_chain :
    ∀ (n : Nat) (l : List Char), l.length ≤ n → '\t' ∉ l →
      List.Chain' (fun a c =>
        ¬(Deduplication.isHT a = true ∧ Deduplication.isHT c = true)) l →
      Deduplication.htOK false l = true := by
  intro n
  induction n with
  | zero =>
    intro l hl _ _
    have : l = [] := List.eq_nil_of_length_eq_zero (by omega)
    subst this
    rfl
  | succ n ih =>
    intro l hl htab hchain
    cases l with
    | nil => rfl
    | cons c rest =>
      have hctab : ¬(c = '\t') := fun he => htab (he ▸ List.mem_cons_self c rest)
      cases rest with
      | nil =>
        by_cases hc : Deduplication.isHT c
        · simp [Deduplication.htOK, hc, hctab]
        · simp [Deduplication.htOK, hc]
      | cons d rest2 =>
        have htail : Deduplication.htOK false (d :: rest2) = true := by
          refine ih (d :: rest2) (by simp at hl ⊢; omega)
            (fun hm => htab (List.mem_cons_of_mem c hm)) hchain.tail
        by_cases hc : Deduplication.isHT c
        · have hrd := (List.chain'_cons.mp hchain).1
          have hd : Deduplication.isHT d = false := by
            by_cases h2 : Deduplication.isHT d
            · exact absurd ⟨hc, h2⟩ hrd
            · simpa using h2
          rw [htOK_head_indep false d rest2 hd] at htail
          simp [Deduplication.htOK, hc, hctab, hd, htail]
        · rw [htOK_head_indep false c (d :: rest2) (by simpa using hc)]
          exact htail

theorem htOK_reverse (l : List Char) (h : Deduplication.htOK false l = true) :
    Deduplication.htOK false l.reverse = true := by
  obtain ⟨htab, hchain⟩ := htOK_chain l false h
  refine htOK_of_chain l.reverse.length l.reverse (le_refl _) (by simpa using htab) ?_
  rw [List.chain'_reverse]
  exact hchain.imp (fun a b hab hcon => hab ⟨hcon.2, hcon.1⟩)

theorem htOK_dropWhile (p : Char → Bool) (l : List Char)
    (h : Deduplication.htOK false l = true) :
    Deduplication.htOK false (l.dropWhile p) = true := by
  induction l with
  | nil => exact h
  | cons c rest ih =>
    rw [List.dropWhile_cons]
    by_cases hp : p c
    · simp only [hp, if_true]
      exact ih (htOK_tail false c rest h)
    · simp only [hp, Bool.false_eq_true, if_false]
      exact h

theorem htOK_stripPy (l : List Char) (h : Deduplication.htOK false l = true) :
    Deduplication.htOK false (Deduplication.stripPy l) = true := by
  unfold Deduplication.stripPy
  exact htOK_reverse _ (htOK_dropWhile _ _ (htOK_reverse _ (htOK_dropWhile _ _ h)))

/-! Facts about the `nlOK` checker. -/

theorem emitNL_eq (k : Nat) : Deduplication.emitNL k = List.replicate (min k 2) '\n' := by
  unfold Deduplication.emitNL
  by_cases h3 : 3 ≤ k
  · rw [if_pos h3]
    have : min k 2 = 2 := by omega
    rw [this]
    rfl
  · rw [if_neg h3]
    have : min k 2 = k := by omega
    rw [this]

theorem nlOK_mono (l : List Char) :
    ∀ j k, j ≤ k → Deduplication.nlOK k l = true → Deduplication.nlOK j l = true := by
  induction l with
  | nil =>
    intro j k hjk h
    simp only [Deduplication.nlOK, decide_eq_true_eq] at h ⊢
    omega
  | cons c rest ih =>
    intro j k hjk h
    simp only [Deduplication.nlOK] at h ⊢
    by_cases hc : c = '\n'
    · rw [if_pos hc] at h ⊢
      exact ih (j + 1) (k + 1) (by omega) h
    · rw [if_neg hc] at h ⊢
      rw [Bool.and_eq_true] at h ⊢
      exact ⟨by simp only [decide_eq_true_eq] at h ⊢; omega, h.2⟩

theorem nlOK_cons_nl (a : Nat) (w : List Char) :
    Deduplication.nlOK a ('\n' :: w) = Deduplication.nlOK (a + 1) w := by
  simp [Deduplication.nlOK]

theorem nlOK_tail (k : Nat) (c : Char) (rest : List Char)
    (h : Deduplication.nlOK k (c :: rest) = true) :
    Deduplication.nlOK 0 rest = true := by
  simp only [Deduplication.nlOK] at h
  by_cases hc : c = '\n'
  · rw [if_pos hc] at h
    exact nlOK_mono rest 0 (k + 1) (by omega) h
  · rw [if_neg hc, Bool.and_eq_true] at h
    exact h.2

theorem nlOK_replicate_append (z : List Char) :
    ∀ j a, Deduplication.nlOK a (List.replicate j '\n' ++ z) = Deduplication.nlOK (a + j) z := by
  intro j
  induction j with
  | zero => intro a; rfl
  | succ j ih =>
    intro a
    rw [List.replicate_succ, List.cons_append]
    show Deduplication.nlOK a ('\n' :: (List.replicate j '\n' ++ z)) = _
    rw [nlOK_cons_nl, ih (a + 1)]
    have : a + 1 + j = a + (j + 1) := by omega
    rw [this]

theorem nlOK_collapseNLAux (l : List Char) :
    ∀ k, Deduplication.nlOK 0 (Deduplication.collapseNLAux k l) = true := by
  induction l with
  | nil =>
    intro k
    show Deduplication.nlOK 0 (Deduplication.emitNL k) = true
    rw [emitNL_eq, ← List.append_nil (List.replicate (min k 2) '\n'),
      nlOK_replicate_append]
    simp only [Deduplication.nlOK, decide_eq_true_eq]
    omega
  | cons c rest ih =>
    intro k
    simp only [Deduplication.collapseNLAux]
    by_cases hc : c = '\n'
    · rw [if_pos hc]
      exact ih (k + 1)
    · rw [if_neg hc, emitNL_eq, nlOK_replicate_append]
      simp only [Deduplication.nlOK, if_neg hc, Bool.and_eq_true, decide_eq_true_eq]
      exact ⟨by omega, ih 0⟩

theorem collapseNLAux_eq_self (l : List Char) :
    ∀ k, Deduplication.nlOK k l = true →
      Deduplication.collapseNLAux k l = List.replicate k '\n' ++ l := by
  induction l with
  | nil =>
    intro k h
    simp only [Deduplication.nlOK, decide_eq_true_eq] at h
    show Deduplication.emitNL k = _
    rw [emitNL_eq]
    have : min k 2 = k := by omega
    rw [this, List.append_nil]
  | cons c rest ih =>
    intro k h
    simp only [Deduplication.collapseNLAux]
    by_cases hc : c = '\n'
    · rw [if_pos hc]
      simp only [Deduplication.nlOK, if_pos hc] at h
      rw [ih (k + 1) h, hc]
      rw [List.replicate_succ' k '\n']
      simp
    · rw [if_neg hc]
      simp only [Deduplication.nlOK, if_neg hc, Bool.and_eq_true, decide_eq_true_eq] at h
      rw [ih 0 h.2, emitNL_eq]
      have : min k 2 = k := by omega
      rw [this]
      simp

theorem nlOK_ge3_false (l : List Char) :
    ∀ k, 3 ≤ k → Deduplication.nlOK k l = false := by
  induction l with
  | nil =>
    intro k h3
    simp only [Deduplication.nlOK, decide_eq_false_iff_not]
    omega
  | cons c rest ih =>
    intro k h3
    simp only [Deduplication.nlOK]
    by_cases hc : c = '\n'
    · rw [if_pos hc]
      exact ih (k + 1) (by omega)
    · rw [if_neg hc]
      have : (decide (k ≤ 2)) = false := by
        simp only [decide_eq_false_iff_not]
        omega
      rw [this, Bool.false_and]

theorem nlOK_triple_false (v : List Char) :
    ∀ (u : List Char) k,
      Deduplication.nlOK k (u ++ '\n' :: '\n' :: '\n' :: v) = false := by
  intro u
  induction u with
  | nil =>
    intro k
    show Deduplication.nlOK k ('\n' :: '\n' :: '\n' :: v) = false
    simp only [Deduplication.nlOK, if_pos rfl]
    exact nlOK_ge3_false v (k + 3) (by omega)
  | cons c u' ih =>
    intro k
    rw [List.cons_append]
    simp only [Deduplication.nlOK]
    by_cases hc : c = '\n'
    · rw [if_pos hc]
      exact ih (k + 1)
    · rw [if_neg hc, ih 0, Bool.and_false]

theorem nlOK_false_decomp (l : List Char) :
    ∀ k, k ≤ 2 → Deduplication.nlOK k l = false →
      ∃ u v, List.replicate k '\n' ++ l = u ++ '\n' :: '\n' :: '\n' :: v := by
  induction l with
  | nil =>
    intro k hk h
    simp only [Deduplication.nlOK, decide_eq_false_iff_not] at h
    omega
  | cons c rest ih =>
    intro k hk h
    simp only [Deduplication.nlOK] at h
    by_cases hc : c = '\n'
    · rw [if_pos hc] at h
      subst hc
      by_cases hk2 : k + 1 ≤ 2
      · obtain ⟨u, v, huv⟩ := ih (k + 1) hk2 h
        refine ⟨u, v, ?_⟩
        rw [← huv, List.replicate_succ' k '\n']
        simp
      · have hk3 : k = 2 := by omega
        subst hk3
        exact ⟨[], rest, rfl⟩
    · rw [if_neg hc] at h
      have hk2 : (decide (k ≤ 2)) = true := by simpa using hk
      rw [hk2, Bool.true_and] at h
      obtain ⟨u, v, huv⟩ := ih 0 (by omega) h
      simp only [List.replicate_zero, List.nil_append] at huv
      exact ⟨List.replicate k '\n' ++ c :: u, v, by rw [huv]; simp⟩

theorem nlOK_reverse (l : List Char) (h : Deduplication.nlOK 0 l = true) :
    Deduplication.nlOK 0 l.reverse = true := by
  by_cases hrev : Deduplication.nlOK 0 l.reverse = true
  · exact hrev
  · exfalso
    obtain ⟨u, v, huv⟩ := nlOK_false_decomp l.reverse 0 (by omega)
      (Bool.not_eq_true _ ▸ hrev)
    simp only [List.replicate_zero, List.nil_append] at huv
    have hl : l = v.reverse ++ '\n' :: '\n' :: '\n' :: u.reverse := by
      have := congrArg List.reverse huv
      rw [List.reverse_reverse] at this
      rw [this]
      simp
    rw [hl, nlOK_triple_false] at h
    exact Bool.false_ne_true h

theorem nlOK_dropWhile (p : Char → Bool) (l : List Char)
    (h : Deduplication.nlOK 0 l = true) :
    Deduplication.nlOK 0 (l.dropWhile p) = true := by
  induction l with
  | nil => exact h
  | cons c rest ih =>
    rw [List.dropWhile_cons]
    by_cases hp : p c
    · simp only [hp, if_true]
      exact ih (nlOK_tail 0 c rest h)
    · simp only [hp, Bool.false_eq_true, if_false]
      exact h

theorem nlOK_stripPy (l : List Char) (h : Deduplication.nlOK 0 l = true) :
    Deduplication.nlOK 0 (Deduplication.stripPy l) = true := by
  unfold Deduplication.stripPy
  exact nlOK_reverse _ (nlOK_dropWhile _ _ (nlOK_reverse _ (nlOK_dropWhile _ _ h)))

/-! Interaction of the two collapses, and strip idempotence. -/

theorem htOK_all_nl : ∀ (j : Nat) (b : Bool),
    Deduplication.htOK b (List.replicate j '\n') = true := by
  intro j
  induction j with
  | zero => intro b; rfl
  | succ j ih =>
    intro b
    rw [List.replicate_succ, htOK_head_indep b '\n' _ (by decide)]
    exact ih false

theorem htOK_replicate_nl_append (z : List Char) :
    ∀ (j : Nat) (b : Bool), 1 ≤ j →
      Deduplication.htOK b (List.replicate j '\n' ++ z) = Deduplication.htOK false z := by
  intro j
  induction j with
  | zero => intro b h; omega
  | succ j ih =>
    intro b _
    rw [List.replicate_succ, List.cons_append, htOK_head_indep b '\n' _ (by decide)]
    cases Nat.eq_zero_or_pos j with
    | inl h0 => rw [h0]; rfl
    | inr hpos => exact ih false hpos

theorem collapseNLAux_head_nl (l : List Char) :
    ∀ k, 1 ≤ k → ∃ z, Deduplication.collapseNLAux k l = '\n' :: z := by
  induction l with
  | nil =>
    intro k hk
    show ∃ z, Deduplication.emitNL k = '\n' :: z
    rw [emitNL_eq]
    obtain ⟨j, hj⟩ : ∃ j, min k 2 = j + 1 := ⟨min k 2 - 1, by omega⟩
    exact ⟨List.replicate j '\n', by rw [hj, List.replicate_succ]⟩
  | cons c rest ih =>
    intro k hk
    simp only [Deduplication.collapseNLAux]
    by_cases hc : c = '\n'
    · rw [if_pos hc]
      exact ih (k + 1) (by omega)
    · rw [if_neg hc, emitNL_eq]
      obtain ⟨j, hj⟩ : ∃ j, min k 2 = j + 1 := ⟨min k 2 - 1, by omega⟩
      exact ⟨List.replicate j '\n' ++ c :: Deduplication.collapseNLAux 0 rest,
        by rw [hj, List.replicate_succ, List.cons_append]⟩

theorem htOK_collapseNLAux (l : List Char) :
    ∀ k b, Deduplication.htOK b l = true →
      Deduplication.htOK b (Deduplication.collapseNLAux k l) = true := by
  induction l with
  | nil =>
    intro k b _
    show Deduplication.htOK b (Deduplication.emitNL k) = true
    rw [emitNL_eq]
    exact htOK_all_nl _ b
  | cons c rest ih =>
    intro k b h
    simp only [Deduplication.collapseNLAux]
    by_cases hc : c = '\n'
    · rw [if_pos hc]
      subst hc
      rw [htOK_head_indep b '\n' rest (by decide)] at h
      obtain ⟨z, hz⟩ := collapseNLAux_head_nl rest (k + 1) (by omega)
      rw [hz, htOK_head_indep b '\n' z (by decide)]
      have := ih (k + 1) false h
      rw [hz, htOK_head_indep false '\n' z (by decide)] at this
      exact this
    · rw [if_neg hc]
      have hmain : ∀ b2 : Bool, Deduplication.htOK b2 (c :: rest) = true →
          Deduplication.htOK b2 (c :: Deduplication.collapseNLAux 0 rest) = true := by
        intro b2 h2
        by_cases hht : Deduplication.isHT c
        · simp only [Deduplication.htOK, hht, if_true, Bool.and_eq_true] at h2 ⊢
          exact ⟨h2.1, ih 0 true h2.2⟩
        · rw [htOK_head_indep b2 c _ (by simpa using hht)] at h2 ⊢
          exact ih 0 false h2
      cases Nat.eq_zero_or_pos k with
      | inl h0 =>
        rw [h0]
        show Deduplication.htOK b (Deduplication.emitNL 0 ++ c :: Deduplication.collapseNLAux 0 rest) = true
        rw [emitNL_eq]
        simp only [Nat.zero_min, List.replicate_zero, List.nil_append]
        exact hmain b h
      | inr hpos =>
        rw [emitNL_eq, htOK_replicate_nl_append _ _ b (by omega)]
        refine hmain false ?_
        by_cases hht : Deduplication.isHT c
        · simp only [Deduplication.htOK, hht, if_true, Bool.and_eq_true] at h ⊢
          exact ⟨⟨by simp, h.1.2⟩, h.2⟩
        · rw [htOK_head_indep false c _ (by simpa using hht)]
          rw [htOK_head_indep b c _ (by simpa using hht)] at h
          exact h

theorem dropWhile_head_false (p : Char → Bool) :
    ∀ (x : List Char) y ys, x.dropWhile p = y :: ys → p y = false := by
  intro x
  induction x with
  | nil => intro y ys h; simp at h
  | cons c rest ih =>
    intro y ys h
    rw [List.dropWhile_cons] at h
    by_cases hp : p c
    · rw [if_pos hp] at h
      exact ih y ys h
    · rw [if_neg hp] at h
      have : c = y := (List.cons.injEq _ _ _ _ ▸ h).1
      subst this
      simpa using hp

theorem stripPy_idem (l : List Char) :
    Deduplication.stripPy (Deduplication.stripPy l) = Deduplication.stripPy l := by
  set p := Deduplication.isPySpace with hp
  set A := l.dropWhile p with hA
  set B := A.reverse.dropWhile p with hB
  have hsl : Deduplication.stripPy l = B.reverse := rfl
  cases hBe : B with
  | nil => rw [hsl, hBe]; rfl
  | cons b bs =>
    have hpb : p b = false := dropWhile_head_false p A.reverse b bs (by rw [← hB, hBe])
    have hAne : A ≠ [] := by
      intro h0
      rw [h0] at hB
      simp at hB
      rw [hB] at hBe
      exact List.cons_ne_nil b bs hBe.symm
    obtain ⟨a, A', hA2⟩ := List.exists_cons_of_ne_nil hAne
    have hpa : p a = false := dropWhile_head_false p l a A' (by rw [← hA, hA2])
    have hw : A.reverse = A.reverse.takeWhile p ++ B := by
      rw [hB, List.takeWhile_append_dropWhile]
    have hpre : A = B.reverse ++ (A.reverse.takeWhile p).reverse := by
      have := congrArg List.reverse hw
      rw [List.reverse_reverse, List.reverse_append] at this
      exact this
    obtain ⟨z, hz⟩ : ∃ z, B.reverse = a :: z := by
      cases hbe2 : B.reverse with
      | nil =>
        exfalso
        have : B = [] := by
          have := congrArg List.reverse hbe2
          rw [List.reverse_reverse] at this
          exact this
        rw [this] at hBe
        exact List.cons_ne_nil b bs hBe.symm
      | cons c z =>
        rw [hbe2] at hpre
        rw [hA2] at hpre
        have : a = c := (List.cons.injEq _ _ _ _ ▸ hpre).1
        exact ⟨z, by rw [← this]⟩
    show Deduplication.stripPy B.reverse = B.reverse
    unfold Deduplication.stripPy
    have step1 : B.reverse.dropWhile p = B.reverse := by
      rw [hz]
      exact List.dropWhile_cons_of_neg (by simp [hpa])
    rw [show B.reverse.dropWhile Deduplication.isPySpace = B.reverse from step1,
      List.reverse_reverse]
    have step2 : B.dropWhile p = B := by
      rw [hBe]
      exact List.dropWhile_cons_of_neg (by simp [hpb])
    rw [show B.dropWhile Deduplication.isPySpace = B from step2]

/-- Idempotence of the document normalizer of Deduplication.py. -/
theorem doc_normalize_idem (s : List Char) :
    Deduplication.normalize_text (Deduplication.normalize_text s) =
      Deduplication.normalize_text s := by
  set x := Deduplication.collapseNL (Deduplication.collapseHT (Deduplication.replaceCR s))
    with hx
  have ht : Deduplication.normalize_text s = Deduplication.stripPy x := rfl
  have hcr : '\r' ∉ Deduplication.stripPy x := by
    intro hmem
    have h1 := mem_stripPy _ _ hmem
    rcases mem_collapseNLAux _ 0 '\r' h1 with h2 | h2
    · exact absurd h2 (by decide)
    · rcases mem_collapseHTAux _ false '\r' h2 with h3 | h3
      · exact absurd h3 (by decide)
      · exact not_cr_replaceCR s h3
  have hht : Deduplication.htOK false (Deduplication.stripPy x) = true := by
    refine htOK_stripPy x ?_
    rw [hx]
    exact htOK_collapseNLAux _ 0 false (htOK_collapseHTAux _ false)
  have hnl : Deduplication.nlOK 0 (Deduplication.stripPy x) = true := by
    refine nlOK_stripPy x ?_
    rw [hx]
    exact nlOK_collapseNLAux _ 0
  rw [ht]
  show Deduplication.stripPy
      (Deduplication.collapseNL (Deduplication.collapseHT
        (Deduplication.replaceCR (Deduplication.stripPy x))))
    = Deduplication.stripPy x
  rw [replaceCR_eq_self _ hcr]
  show Deduplication.stripPy
      (Deduplication.collapseNL (Deduplication.collapseHTAux false (Deduplication.stripPy x)))
    = Deduplication.stripPy x
  rw [collapseHTAux_eq_self _ false hht]
  show Deduplication.stripPy (Deduplication.collapseNLAux 0 (Deduplication.stripPy x))
    = Deduplication.stripPy x
  rw [collapseNLAux_eq_self _ 0 hnl]
  rw [List.replicate_zero, List.nil_append]
  exact stripPy_idem x

/-- C10: both text normalizers are idempotent: the document normalizer of
Deduplication.py (carriage-return collapsing, whitespace and newline
collapsing, trim) and the tabular normalizer of deduplicateApp.py
(strip, lowercase, whitespace-split re-join). -/
theorem c10_normalizers_idempotent (s : List Char) :
    Deduplication.normalize_text (Deduplication.normalize_text s) =
      Deduplication.normalize_text s
    ∧ DedupApp.normalize_text (DedupApp.normalize_text s) = DedupApp.normalize_text s :=
  ⟨doc_normalize_idem s, tab_normalize_idem s⟩

/-- C2 witness: the amended representative-selection theorem applied to
the concrete sorted cluster `[0, 1]` with texts `a` and `bc`. -/
theorem c2_longest_representative_witness :
    (([0, 1] : List Nat) ≠ [])
    ∧ (([0, 1] : List Nat).Pairwise (· < ·))
    ∧ DedupApp.choose_representative [0, 1] [['a'], ['b', 'c']] "longest" ∈ [0, 1] :=
  ⟨by decide, by decide,
    (c2_longest_representative [0, 1] [['a'], ['b', 'c']] (by decide) (by decide)).1⟩

/-! ## C9: epsilon-guarded normalization never divides by zero -/

/-- C9: every normalization denominator in the pipeline is strictly
positive, for every input vector including the zero vector: the
`mean_pool` denominator `norm + 1e-8`, the `build_clusters` row norms
with zeros replaced by one, and the `OpenAIEmbedder.embed` denominator
`norm + 1e-8`. -/
theorem c9_normalization_denominators_positive (rows : List (List ℚ)) (v : List ℚ) :
    0 < Deduplication.mean_pool_denom rows
    ∧ 0 < DedupApp.adjNorm v
    ∧ 0 < Deduplication.openai_embed_denom v := by
  refine ⟨?_, ?_, ?_⟩
  · unfold Deduplication.mean_pool_denom normQR
    positivity
  · unfold DedupApp.adjNorm
    by_cases h : normQR v = 0
    · rw [if_pos h]
      norm_num
    · rw [if_neg h]
      have h0 : 0 ≤ normQR v := by
        unfold normQR
        positivity
      exact lt_of_le_of_ne h0 (Ne.symm h)
  · unfold Deduplication.openai_embed_denom normQR
    positivity

/-! ## C5: threshold validation in build_clusters -/

/-- C5 counterexample: the claim demands rejection for every embedding
input whenever the radius `1 - threshold` is not in `(0, 2)`.  With an
empty embedding matrix the function returns the empty cluster dictionary
before the validation runs, so threshold 3 (radius -2) is accepted. -/
theorem c5_counterexample :
    (1 - (3 : ℚ) ≤ 0) ∧ DedupApp.build_clusters [] 3 = Except.ok [] := by
  constructor
  · norm_num
  · rfl

/-- C5 (amended): for every NON-EMPTY embedding input, `build_clusters`
raises exactly when the radius `1 - threshold` satisfies
`radius <= 0 or radius >= 2` (equivalently `threshold >= 1` or
`threshold <= -1`), and returns clusters otherwise; the empty input is
accepted without validation. -/
theorem c5_threshold_validation (embs : List (List ℚ)) (t : ℚ) (hne : embs ≠ []) :
    (∃ e, DedupApp.build_clusters embs t = Except.error e) ↔ (1 - t ≤ 0 ∨ 2 ≤ 1 - t) := by
  unfold DedupApp.build_clusters
  have hlen : ¬ embs.length = 0 := by simpa using hne
  rw [if_neg hlen]
  by_cases hr : 1 - t ≤ 0 ∨ 2 ≤ 1 - t
  · rw [if_pos hr]
    exact ⟨fun _ => hr, fun _ => ⟨_, rfl⟩⟩
  · rw [if_neg hr]
    constructor
    · intro ⟨e, he⟩
      exact absurd he (by simp)
    · intro h
      exact absurd h hr

/-- C5 witness: the amended validation theorem applied to the non-empty
input `[[1]]` with threshold 3. -/
theorem c5_threshold_validation_witness :
    (([[(1 : ℚ)]] : List (List ℚ)) ≠ [])
    ∧ ((∃ e, DedupApp.build_clusters [[(1 : ℚ)]] 3 = Except.error e)
        ↔ (1 - (3 : ℚ) ≤ 0 ∨ 2 ≤ 1 - (3 : ℚ))) :=
  ⟨by simp, c5_threshold_validation [[(1 : ℚ)]] 3 (by simp)⟩

/-! ## C6: chunking covers the whole normalized input modulo whitespace -/

theorem nonWS_nil : Deduplication.nonWS [] = [] := rfl

theorem nonWS_append (a b : List Char) :
    Deduplication.nonWS (a ++ b) = Deduplication.nonWS a ++ Deduplication.nonWS b := by
  unfold Deduplication.nonWS
  exact List.filter_append a b

theorem nonWS_ws_cons (c : Char) (l : List Char) (hc : Deduplication.isPySpace c = true) :
    Deduplication.nonWS (c :: l) = Deduplication.nonWS l := by
  unfold Deduplication.nonWS
  rw [List.filter_cons_of_neg (by simp [hc])]

theorem nonWS_cons_of_not_ws (c : Char) (l : List Char)
    (hc : Deduplication.isPySpace c = false) :
    Deduplication.nonWS (c :: l) = c :: Deduplication.nonWS l := by
  unfold Deduplication.nonWS
  rw [List.filter_cons_of_pos (by simp [hc])]

theorem nonWS_all_ws (l : List Char) (h : ∀ c ∈ l, Deduplication.isPySpace c = true) :
    Deduplication.nonWS l = [] := by
  unfold Deduplication.nonWS
  rw [List.filter_eq_nil_iff]
  intro c hc
  simp [h c hc]

theorem nonWS_dropWhile_ws (l : List Char) :
    Deduplication.nonWS (l.dropWhile Deduplication.isPySpace) = Deduplication.nonWS l := by
  induction l with
  | nil => rfl
  | cons c rest ih =>
    rw [List.dropWhile_cons]
    by_cases hc : Deduplication.isPySpace c
    · rw [if_pos hc, ih, nonWS_ws_cons c rest hc]
    · rw [if_neg hc]

theorem nonWS_reverse (l : List Char) :
    Deduplication.nonWS l.reverse = (Deduplication.nonWS l).reverse :=
  List.filter_reverse _ l

theorem nonWS_stripPy (l : List Char) :
    Deduplication.nonWS (Deduplication.stripPy l) = Deduplication.nonWS l := by
  unfold Deduplication.stripPy
  rw [nonWS_reverse, nonWS_dropWhile_ws, nonWS_reverse, List.reverse_reverse,
    nonWS_dropWhile_ws]

theorem nonWS_splitNNAux (l : List Char) :
    ∀ (pend : Option (List Char)) (curp : List Char),
      (∀ buf, pend = some buf → ∀ b ∈ buf, Deduplication.isPySpace b = true) →
      Deduplication.nonWS (Deduplication.splitNNAux pend curp l).flatten
        = Deduplication.nonWS curp ++ Deduplication.nonWS l := by
  induction l with
  | nil =>
    intro pend curp hpend
    cases pend with
    | none => simp [Deduplication.splitNNAux, nonWS_append, nonWS_nil]
    | some buf =>
      have hbuf := hpend buf rfl
      simp only [Deduplication.splitNNAux]
      by_cases hnl : (buf.drop 1).contains '\n'
      · rw [if_pos hnl]
        have hdrop : Deduplication.nonWS (buf.drop
            (buf.length - (buf.reverse.takeWhile (fun x => ¬ x = '\n')).length)) = [] := by
          refine nonWS_all_ws _ ?_
          intro c hc
          exact hbuf c ((List.drop_sublist _ _).mem hc)
        simp only [List.flatten_cons, List.flatten_nil, nonWS_append, hdrop]
        simp [nonWS_nil]
      · rw [if_neg hnl]
        have hb : Deduplication.nonWS buf = [] := nonWS_all_ws buf hbuf
        simp [nonWS_append, hb, nonWS_nil]
  | cons c rest ih =>
    intro pend curp hpend
    cases pend with
    | none =>
      simp only [Deduplication.splitNNAux]
      by_cases hc : c = '\n'
      · rw [if_pos hc]
        rw [ih (some [c]) curp (by intro buf hbuf b hb; rw [(Option.some.injEq _ _).mp hbuf.symm] at hb; rw [List.mem_singleton.mp hb, hc]; rfl)]
        rw [nonWS_ws_cons c rest (by rw [hc]; rfl)]
      · rw [if_neg hc]
        rw [ih none (curp ++ [c]) (by intro buf h; exact absurd h (by simp))]
        rw [nonWS_append]
        by_cases hws : Deduplication.isPySpace c
        · rw [nonWS_ws_cons c rest hws, nonWS_all_ws [c] (by intro d hd; rw [List.mem_singleton.mp hd]; exact hws)]
          simp
        · rw [nonWS_cons_of_not_ws c rest (by simpa using hws),
            nonWS_cons_of_not_ws c [] (by simpa using hws)]
          simp [nonWS_nil]
    | some buf =>
      have hbuf := hpend buf rfl
      simp only [Deduplication.splitNNAux]
      by_cases hws : Deduplication.isPySpace c
      · rw [if_pos hws]
        rw [ih (some (buf ++ [c])) curp ?_]
        · rw [nonWS_ws_cons c rest hws]
        · intro buf2 hb2 b hb
          rw [(Option.some.injEq _ _).mp hb2.symm] at hb
          rcases List.mem_append.mp hb with h1 | h1
          · exact hbuf b h1
          · rw [List.mem_singleton.mp h1]
            exact hws
      · rw [if_neg hws]
        have hcn : Deduplication.isPySpace c = false := by simpa using hws
        by_cases hnl : (buf.drop 1).contains '\n'
        · rw [if_pos hnl]
          rw [List.flatten_cons, nonWS_append,
            ih none _ (by intro buf2 h; exact absurd h (by simp))]
          have hdrop : Deduplication.nonWS (buf.drop
              (buf.length - (buf.reverse.takeWhile (fun x => ¬ x = '\n')).length)) = [] := by
            refine nonWS_all_ws _ ?_
            intro d hd
            exact hbuf d ((List.drop_sublist _ _).mem hd)
          rw [nonWS_append, hdrop, nonWS_cons_of_not_ws c [] hcn,
            nonWS_cons_of_not_ws c rest hcn]
          simp [nonWS_nil]
        · rw [if_neg hnl]
          rw [ih none _ (by intro buf2 h; exact absurd h (by simp))]
          have hb : Deduplication.nonWS buf = [] := nonWS_all_ws buf hbuf
          rw [nonWS_append, nonWS_append, hb, nonWS_cons_of_not_ws c [] hcn,
            nonWS_cons_of_not_ws c rest hcn]
          simp [nonWS_nil]

theorem nonWS_strip_filter (pieces : List (List Char)) :
    Deduplication.nonWS
        (((pieces.map Deduplication.stripPy).filter (fun p => !p.isEmpty)).flatten)
      = Deduplication.nonWS pieces.flatten := by
  induction pieces with
  | nil => rfl
  | cons p ps ih =>
    rw [List.map_cons, List.filter_cons, List.flatten_cons, nonWS_append, ← ih]
    by_cases he : (Deduplication.stripPy p).isEmpty
    · have hp : Deduplication.nonWS p = [] := by
        rw [← nonWS_stripPy]
        rw [List.isEmpty_iff.mp he]
        rfl
      simp only [he, Bool.not_true, Bool.false_eq_true, if_false, hp, List.nil_append]
    · simp only [he, Bool.not_false, if_true, List.flatten_cons, nonWS_append,
        nonWS_stripPy]

theorem nonWS_split_into_paragraphs (t : List Char) :
    Deduplication.nonWS (Deduplication.split_into_paragraphs t).flatten
      = Deduplication.nonWS t := by
  unfold Deduplication.split_into_paragraphs
  rw [nonWS_strip_filter, nonWS_splitNNAux t none [] (by intro buf h; exact absurd h (by simp))]
  rfl

theorem nonWS_joinNN :
    ∀ ps : List (List Char),
      Deduplication.nonWS (Deduplication.joinNN ps) = Deduplication.nonWS ps.flatten
  | [] => rfl
  | [p] => by
    show Deduplication.nonWS p = Deduplication.nonWS (p ++ [])
    rw [nonWS_append, nonWS_nil, List.append_nil]
  | p :: q :: ps => by
    show Deduplication.nonWS (p ++ '\n' :: '\n' :: Deduplication.joinNN (q :: ps)) = _
    rw [nonWS_append, nonWS_ws_cons _ _ (by decide), nonWS_ws_cons _ _ (by decide),
      nonWS_joinNN (q :: ps), List.flatten_cons, nonWS_append, List.flatten_cons,
      nonWS_append, List.flatten_cons, nonWS_append]

theorem chunk_loop_sublist (csize ov : Nat) :
    ∀ (paras : List (List Char)) (st : Deduplication.ChunkState),
      List.Sublist
        (Deduplication.nonWS st.chunks.flatten
          ++ (Deduplication.nonWS (Deduplication.joinNN st.cur)
          ++ Deduplication.nonWS paras.flatten))
        (Deduplication.nonWS
          ((if (paras.foldl (Deduplication.chunkStep csize ov) st).cur ≠ []
            then (paras.foldl (Deduplication.chunkStep csize ov) st).chunks
              ++ [Deduplication.joinNN (paras.foldl (Deduplication.chunkStep csize ov) st).cur]
            else (paras.foldl (Deduplication.chunkStep csize ov) st).chunks).flatten)) := by
  intro paras
  induction paras with
  | nil =>
    intro st
    simp only [List.foldl_nil, List.flatten_nil, nonWS_nil, List.append_nil]
    by_cases hcur : st.cur ≠ []
    · rw [if_pos hcur, List.flatten_append, nonWS_append, List.flatten_cons,
        List.flatten_nil, List.append_nil]
    · rw [if_neg hcur]
      push_neg at hcur
      rw [hcur]
      show List.Sublist (Deduplication.nonWS st.chunks.flatten
        ++ (Deduplication.nonWS [] ++ [])) _
      rw [nonWS_nil, List.append_nil, List.append_nil]
  | cons p ps ih =>
    intro st
    rw [List.foldl_cons]
    refine List.Sublist.trans ?_ (ih (Deduplication.chunkStep csize ov st p))
    rw [List.flatten_cons, nonWS_append]
    have key : List.Sublist
        (Deduplication.nonWS st.chunks.flatten
          ++ (Deduplication.nonWS (Deduplication.joinNN st.cur) ++ Deduplication.nonWS p))
        (Deduplication.nonWS (Deduplication.chunkStep csize ov st p).chunks.flatten
          ++ Deduplication.nonWS
            (Deduplication.joinNN (Deduplication.chunkStep csize ov st p).cur)) := by
      unfold Deduplication.chunkStep
      by_cases hfit : st.curLen + p.length + 1 ≤ (csize : Int)
      · rw [if_pos hfit]
        simp only
        rw [nonWS_joinNN, nonWS_joinNN, List.flatten_append, nonWS_append,
          List.flatten_cons, List.flatten_nil, nonWS_append, nonWS_nil, List.append_nil]
      · rw [if_neg hfit]
        by_cases hcur : st.cur ≠ []
        · rw [if_pos hcur]
          by_cases hov : 0 < ov
          · rw [if_pos hov]
            simp only
            rw [List.flatten_append, List.flatten_cons, List.flatten_nil, nonWS_append,
              nonWS_append, nonWS_nil, List.append_nil]
            rw [nonWS_joinNN [_, p], List.flatten_cons, List.flatten_cons,
              List.flatten_nil, nonWS_append, nonWS_append, nonWS_nil, List.append_nil]
            rw [List.append_assoc]
            refine List.Sublist.append_left ?_ _
            refine List.Sublist.append_left ?_ _
            exact List.sublist_append_right _ _
          · rw [if_neg hov]
            simp only
            rw [List.flatten_append, List.flatten_cons, List.flatten_nil, nonWS_append,
              nonWS_append, nonWS_nil, List.append_nil]
            rw [nonWS_joinNN [p], List.flatten_cons, List.flatten_nil, nonWS_append,
              nonWS_nil, List.append_nil]
            rw [List.append_assoc]
        · rw [if_neg hcur]
          push_neg at hcur
          by_cases hov : 0 < ov
          · rw [if_pos hov]
            simp only
            rw [hcur]
            show List.Sublist
              (Deduplication.nonWS st.chunks.flatten
                ++ (Deduplication.nonWS (Deduplication.joinNN []) ++ Deduplication.nonWS p))
              _
            rw [show Deduplication.joinNN [] = [] from rfl, nonWS_nil, List.nil_append]
            rw [List.flatten_append, List.flatten_cons, List.flatten_nil, nonWS_append,
              nonWS_append, nonWS_nil, List.append_nil]
            rw [nonWS_joinNN [_, _], List.flatten_cons, List.flatten_cons,
              List.flatten_nil, nonWS_append, nonWS_append, nonWS_nil, List.append_nil]
            conv_lhs => rw [← List.take_append_drop csize p]
            rw [nonWS_append, List.append_assoc]
            refine List.Sublist.append_left ?_ _
            refine List.Sublist.append_left ?_ _
            exact List.sublist_append_right _ _
          · rw [if_neg hov]
            simp only
            rw [hcur]
            show List.Sublist
              (Deduplication.nonWS st.chunks.flatten
                ++ (Deduplication.nonWS (Deduplication.joinNN []) ++ Deduplication.nonWS p))
              _
            rw [show Deduplication.joinNN [] = [] from rfl, nonWS_nil, List.nil_append]
            rw [List.flatten_append, List.flatten_cons, List.flatten_nil, nonWS_append,
              nonWS_append, nonWS_nil, List.append_nil]
            rw [nonWS_joinNN [_], List.flatten_cons, List.flatten_nil, nonWS_append,
              nonWS_nil, List.append_nil]
            conv_lhs => rw [← List.take_append_drop csize p]
            rw [nonWS_append, List.append_assoc]
    have h3 := List.Sublist.append key (List.Sublist.refl (Deduplication.nonWS ps.flatten))
    simpa [List.append_assoc] using h3

/-- C6 counterexample: the claim states that chunking then concatenating
the chunks' non-overlap portions reconstructs text covering the entire
normalized input, no characters outside the declared overlap dropped.
The normalized text `a\n \nb` (a fixed point of the normalizer) splits
into paragraphs `a`, `b` and chunks into the single chunk `a\n\nb`:
with one chunk there is no overlap region at all, yet the space of the
paragraph separator has been dropped, so the concatenation does not
cover the normalized input. -/
theorem c6_counterexample :
    Deduplication.normalize_text ("a\n \nb".toList) = "a\n \nb".toList
    ∧ Deduplication.chunk_paragraphs
        (Deduplication.split_into_paragraphs ("a\n \nb".toList)) 1000 200
      = ["a\n\nb".toList]
    ∧ ("a\n\nb".toList ≠ "a\n \nb".toList) := by
  refine ⟨by decide, by decide, by decide⟩

/-- C6 (amended): chunking the normalized text drops or rewrites only
whitespace (paragraph-separator whitespace and trimmed chunk edges) and
duplicates only overlap: every non-whitespace character of the
normalized input appears, in order, in the concatenation of the
produced chunks, for every chunk_size and overlap configuration. -/
theorem c6_chunking_covers_input (text : List Char) (csize ov : Nat) :
    List.Sublist
      (Deduplication.nonWS (Deduplication.normalize_text text))
      (Deduplication.nonWS
        (Deduplication.chunk_paragraphs
          (Deduplication.split_into_paragraphs (Deduplication.normalize_text text))
          csize ov).flatten) := by
  set paras := Deduplication.split_into_paragraphs (Deduplication.normalize_text text)
    with hparas
  have h1 : Deduplication.chunk_paragraphs paras csize ov
      = (((if (paras.foldl (Deduplication.chunkStep csize ov) ⟨[], [], 0⟩).cur ≠ []
          then (paras.foldl (Deduplication.chunkStep csize ov) ⟨[], [], 0⟩).chunks
            ++ [Deduplication.joinNN
              (paras.foldl (Deduplication.chunkStep csize ov) ⟨[], [], 0⟩).cur]
          else (paras.foldl (Deduplication.chunkStep csize ov) ⟨[], [], 0⟩).chunks)).map
          Deduplication.stripPy).filter (fun c => !c.isEmpty) := rfl
  rw [h1, nonWS_strip_filter]
  have h2 := chunk_loop_sublist csize ov paras ⟨[], [], 0⟩
  have h3 : Deduplication.nonWS paras.flatten
      = Deduplication.nonWS (Deduplication.normalize_text text) := by
    rw [hparas, nonWS_split_into_paragraphs]
  simp only [List.flatten_nil, nonWS_nil, List.nil_append,
    show Deduplication.joinNN [] = [] from rfl, h3] at h2
  exact h2

/-! ## C8: a provider failure aborts the run before any output -/

theorem embedStep_ok (provider : List (List Char) → Except String (List (List ℚ)))
    (acc v : List (List ℚ)) (x : List (List Char)) (hv : provider x = Except.ok v) :
    DedupApp.embedStep provider (Except.ok acc) x = Except.ok (acc ++ v) := by
  unfold DedupApp.embedStep
  rw [hv]

theorem embedStep_error (provider : List (List Char) → Except String (List (List ℚ)))
    (e : String) (x : List (List Char)) :
    DedupApp.embedStep provider (Except.error e) x = Except.error e := rfl

theorem foldl_embedStep_ok (provider : List (List Char) → Except String (List (List ℚ))) :
    ∀ (pre : List (List (List Char))) (acc : List (List ℚ)),
      (∀ x ∈ pre, ∃ v, provider x = Except.ok v) →
      ∃ vs, pre.foldl (DedupApp.embedStep provider) (Except.ok acc) = Except.ok vs
  | [], acc, _ => ⟨acc, rfl⟩
  | x :: xs, acc, hx => by
    obtain ⟨v, hv⟩ := hx x (List.mem_cons_self _ _)
    rw [List.foldl_cons, embedStep_ok provider acc v x hv]
    exact foldl_embedStep_ok provider xs (acc ++ v)
      (fun y hy => hx y (List.mem_cons_of_mem x hy))

theorem foldl_embedStep_error (provider : List (List Char) → Except String (List (List ℚ)))
    (e : String) :
    ∀ post : List (List (List Char)),
      post.foldl (DedupApp.embedStep provider) (Except.error e) = Except.error e
  | [] => rfl
  | x :: xs => by
    rw [List.foldl_cons, embedStep_error]
    exact foldl_embedStep_error provider e xs

/-- If the provider fails on some batch (all earlier batches succeeding),
`embed_texts` raises that error. -/
theorem embed_texts_error (provider : List (List Char) → Except String (List (List ℚ)))
    (texts : List (List Char)) (bs : Nat) (e : String)
    (pre : List (List (List Char))) (b : List (List Char)) (post : List (List (List Char)))
    (hsplit : DedupApp.batched texts bs = pre ++ b :: post)
    (hpre : ∀ x ∈ pre, ∃ v, provider x = Except.ok v)
    (hb : provider b = Except.error e) :
    DedupApp.embed_texts provider texts bs = Except.error e := by
  unfold DedupApp.embed_texts
  rw [hsplit, List.foldl_append]
  obtain ⟨vs, hvs⟩ := foldl_embedStep_ok provider pre [] hpre
  rw [hvs, List.foldl_cons]
  have hstep : DedupApp.embedStep provider (Except.ok vs) b = Except.error e := by
    unfold DedupApp.embedStep
    rw [hb]
  rw [hstep]
  exact foldl_embedStep_error provider e post

/-- C8: when the embedding provider fails on any batch of the run (all
earlier batches succeeding), the whole run aborts with that error and no
filtered output is emitted: `runDedup` returns the error, never reaching
the output-writing step. -/
theorem c8_provider_failure_aborts
    (provider : List (List Char) → Except String (List (List ℚ)))
    (rows : List (List Char)) (t : ℚ) (strat : String) (bs : Nat) (e : String)
    (pre : List (List (List Char))) (b : List (List Char)) (post : List (List (List Char)))
    (hsplit : DedupApp.batched (DedupApp.repTextsOf rows) bs = pre ++ b :: post)
    (hpre : ∀ x ∈ pre, ∃ v, provider x = Except.ok v)
    (hb : provider b = Except.error e) :
    DedupApp.runDedup provider rows t strat bs = Except.error e := by
  have hembed := embed_texts_error provider (DedupApp.repTextsOf rows) bs e pre b post
    hsplit hpre hb
  by_cases hk : (DedupApp.keptRows rows).length = 0
  · exfalso
    have hrep : DedupApp.repTextsOf rows = [] := by
      unfold DedupApp.repTextsOf
      rw [List.length_eq_zero.mp hk]
      rfl
    rw [hrep] at hsplit
    have : DedupApp.batched ([] : List (List Char)) bs = [] := rfl
    rw [this] at hsplit
    exact (List.cons_ne_nil b post) (List.append_eq_nil.mp hsplit.symm).2
  · unfold DedupApp.runDedup
    rw [if_neg hk, hembed]

/-- C8 witness: a provider failing exactly on the second of three
one-element batches aborts the concrete run with its error. -/
theorem c8_provider_failure_aborts_witness :
    (DedupApp.batched (DedupApp.repTextsOf ["a".toList, "b".toList, "c".toList]) 1
      = [["a".toList]] ++ ["b".toList] :: [["c".toList]])
    ∧ (∀ x ∈ ([["a".toList]] : List (List (List Char))), ∃ v,
        (fun y => if y = ["b".toList] then Except.error "boom"
          else Except.ok [[(1 : ℚ)]]) x = Except.ok v)
    ∧ ((fun y => if y = ["b".toList] then Except.error "boom"
        else Except.ok [[(1 : ℚ)]]) ["b".toList] = Except.error "boom")
    ∧ DedupApp.runDedup
        (fun y => if y = ["b".toList] then Except.error "boom" else Except.ok [[(1 : ℚ)]])
        ["a".toList, "b".toList, "c".toList] (92 / 100) "first" 1
      = Except.error "boom" := by
  have h1 : DedupApp.batched (DedupApp.repTextsOf ["a".toList, "b".toList, "c".toList]) 1
      = [["a".toList]] ++ ["b".toList] :: [["c".toList]] := by decide
  have h2 : ∀ x ∈ ([["a".toList]] : List (List (List Char))), ∃ v,
      (fun y => if y = ["b".toList] then Except.error "boom"
        else Except.ok [[(1 : ℚ)]]) x = Except.ok v := by
    intro x hx
    refine ⟨[[(1 : ℚ)]], ?_⟩
    rw [List.mem_singleton.mp hx]
    rfl
  have h3 : (fun y => if y = ["b".toList] then Except.error "boom"
      else Except.ok [[(1 : ℚ)]]) ["b".toList] = Except.error "boom" := rfl
  exact ⟨h1, h2, h3,
    c8_provider_failure_aborts _ _ (92 / 100) "first" 1 "boom" _ _ _ h1 h2 h3⟩

/-! ## C3: union-find clustering is transitively closed -/

theorem pf_eq_getElem (p : List Nat) (x : Nat) (h : x < p.length) :
    DedupApp.pf p x = p[x] := by
  unfold DedupApp.pf
  exact List.getD_eq_getElem p x h

theorem pf_oob (p : List Nat) (x : Nat) (h : p.length ≤ x) : DedupApp.pf p x = x := by
  unfold DedupApp.pf
  rw [List.getD_eq_getElem?_getD, List.getElem?_eq_none h]
  rfl

theorem nonroot_lt (p : List Nat) (x : Nat) (h : DedupApp.pf p x ≠ x) : x < p.length := by
  by_contra hge
  exact h (pf_oob p x (by omega))

theorem pf_lt (p : List Nat) (hr : DedupApp.WFr p) (x : Nat) (hx : x < p.length) :
    DedupApp.pf p x < p.length := by
  rw [pf_eq_getElem p x hx]
  exact hr _ (List.getElem_mem hx)

theorem root_iter_fixed (p : List Nat) (r : Nat) (h : DedupApp.IsRootP p r) :
    ∀ k, (DedupApp.pf p)^[k] r = r := by
  intro k
  induction k with
  | zero => rfl
  | succ k ih => rw [Function.iterate_succ_apply, h, ih]

theorem reaches_self (p : List Nat) (r : Nat) (h : DedupApp.IsRootP p r) :
    DedupApp.Reaches p r r :=
  ⟨0, rfl, h⟩

theorem reaches_cons (p : List Nat) (x r : Nat)
    (h : DedupApp.Reaches p (DedupApp.pf p x) r) : DedupApp.Reaches p x r := by
  obtain ⟨k, hk, hr⟩ := h
  exact ⟨k + 1, by rw [Function.iterate_succ_apply]; exact hk, hr⟩

theorem reaches_tail (p : List Nat) (x r : Nat)
    (h : DedupApp.Reaches p x r) : DedupApp.Reaches p (DedupApp.pf p x) r := by
  obtain ⟨k, hk, hr⟩ := h
  cases k with
  | zero =>
    simp only [Function.iterate_zero, id] at hk
    subst hk
    refine ⟨0, ?_, hr⟩
    simp only [Function.iterate_zero, id_eq]
    exact hr
  | succ k =>
    rw [Function.iterate_succ_apply] at hk
    exact ⟨k, hk, hr⟩

theorem reaches_unique (p : List Nat) (x r s : Nat)
    (h1 : DedupApp.Reaches p x r) (h2 : DedupApp.Reaches p x s) : r = s := by
  obtain ⟨k, hk, hr⟩ := h1
  obtain ⟨m, hm, hs⟩ := h2
  rcases le_total k m with hkm | hkm
  · have : m = (m - k) + k := by omega
    rw [this, Function.iterate_add_apply, hk, root_iter_fixed p r hr] at hm
    rw [hm]
  · have : k = (k - m) + m := by omega
    rw [this, Function.iterate_add_apply, hm, root_iter_fixed p s hs] at hk
    rw [hk]

theorem sameRoot_self (p : List Nat) (hwf : DedupApp.WFa p) (x : Nat) :
    DedupApp.sameRoot p x x := by
  obtain ⟨r, hr⟩ := hwf x
  exact ⟨r, hr, hr⟩

theorem sameRoot_trans (p : List Nat) (x y z : Nat)
    (h1 : DedupApp.sameRoot p x y) (h2 : DedupApp.sameRoot p y z) :
    DedupApp.sameRoot p x z := by
  obtain ⟨r1, hx, hy1⟩ := h1
  obtain ⟨r2, hy2, hz⟩ := h2
  rw [reaches_unique p y r1 r2 hy1 hy2] at hx
  exact ⟨r2, hx, hz⟩

theorem no_cycle (p : List Nat) (hwf : DedupApp.WFa p) (x : Nat)
    (hx : DedupApp.pf p x ≠ x) : ∀ m, (DedupApp.pf p)^[m + 1] x ≠ x := by
  intro m hcyc
  obtain ⟨r, k, hk, hr⟩ := hwf x
  have hper : ∀ t, (DedupApp.pf p)^[t * (m + 1)] x = x := by
    intro t
    induction t with
    | zero => simp
    | succ t ih =>
      rw [Nat.succ_mul, Function.iterate_add_apply, hcyc]
      exact ih
  have hbig : (DedupApp.pf p)^[k * (m + 1)] x = x := hper k
  have hsplit : k * (m + 1) = (k * (m + 1) - k) + k := by
    have : k ≤ k * (m + 1) := Nat.le_mul_of_pos_right k (by omega)
    omega
  rw [hsplit, Function.iterate_add_apply, hk, root_iter_fixed p r hr] at hbig
  rw [hbig] at hr
  exact hx hr

theorem depth_le_length (p : List Nat) (x : Nat)
    (hex : ∃ k, DedupApp.IsRootP p ((DedupApp.pf p)^[k] x)) :
    Nat.find hex ≤ p.length := by
  have key : ∀ i j, i < j → j < Nat.find hex →
      (DedupApp.pf p)^[i] x ≠ (DedupApp.pf p)^[j] x := by
    intro i j hij hjK heq
    have hroot := Nat.find_spec hex
    have hchain : (DedupApp.pf p)^[Nat.find hex] x
        = (DedupApp.pf p)^[Nat.find hex - j + i] x := by
      calc (DedupApp.pf p)^[Nat.find hex] x
          = (DedupApp.pf p)^[(Nat.find hex - j) + j] x := by
            have h1 : (Nat.find hex - j) + j = Nat.find hex := by omega
            rw [h1]
        _ = (DedupApp.pf p)^[Nat.find hex - j] ((DedupApp.pf p)^[j] x) :=
            Function.iterate_add_apply _ _ _ _
        _ = (DedupApp.pf p)^[Nat.find hex - j] ((DedupApp.pf p)^[i] x) := by rw [← heq]
        _ = (DedupApp.pf p)^[(Nat.find hex - j) + i] x :=
            (Function.iterate_add_apply _ _ _ _).symm
    rw [hchain] at hroot
    exact Nat.find_min hex (by omega) hroot
  have hinj : Set.InjOn (fun i => (DedupApp.pf p)^[i] x) (Finset.range (Nat.find hex)) := by
    intro i hi j hj hij
    simp only [Finset.coe_range, Set.mem_Iio] at hi hj
    by_contra hne
    rcases Nat.lt_or_ge i j with h | h
    · exact key i j h hj hij
    · have hlt : j < i := by omega
      exact key j i hlt hi hij.symm
  have hmaps : ∀ i ∈ Finset.range (Nat.find hex),
      (fun i => (DedupApp.pf p)^[i] x) i ∈ Finset.range p.length := by
    intro i hi
    simp only [Finset.mem_range] at hi ⊢
    have hnr : ¬ DedupApp.IsRootP p ((DedupApp.pf p)^[i] x) := Nat.find_min hex hi
    exact nonroot_lt p _ (fun h => hnr h)
  have := Finset.card_le_card_of_injOn _ hmaps hinj
  simpa using this

theorem halve_g_ne (p : List Nat) (x : Nat) (hwf : DedupApp.WFa p)
    (hpx : DedupApp.pf p x ≠ x) : DedupApp.pf p (DedupApp.pf p x) ≠ x := by
  intro hg
  have h2 : (DedupApp.pf p)^[1 + 1] x = x := by
    show DedupApp.pf p (DedupApp.pf p x) = x
    exact hg
  exact no_cycle p hwf x hpx 1 h2

theorem halve_px_ne (p : List Nat) (x : Nat) (hpx : DedupApp.pf p x ≠ x) :
    DedupApp.pf p x ≠ x := hpx

theorem halve_pf_self (p : List Nat) (x g : Nat) (hx : x < p.length) :
    DedupApp.pf (p.set x g) x = g := by
  unfold DedupApp.pf
  rw [List.getD_eq_getElem?_getD, List.getElem?_set_self hx]
  rfl

theorem halve_pf_ne (p : List Nat) (x g y : Nat) (hy : y ≠ x) :
    DedupApp.pf (p.set x g) y = DedupApp.pf p y := by
  unfold DedupApp.pf
  rw [List.getD_eq_getElem?_getD, List.getD_eq_getElem?_getD,
    List.getElem?_set_ne (fun h => hy h.symm)]

theorem halve_root_iff (p : List Nat) (x : Nat) (hwf : DedupApp.WFa p)
    (hpx : DedupApp.pf p x ≠ x) (y : Nat) :
    DedupApp.IsRootP (p.set x (DedupApp.pf p (DedupApp.pf p x))) y
      ↔ DedupApp.IsRootP p y := by
  by_cases hy : y = x
  · subst hy
    constructor
    · intro h
      exfalso
      have := halve_pf_self p y (DedupApp.pf p (DedupApp.pf p y)) (nonroot_lt p y hpx)
      rw [DedupApp.IsRootP, this] at h
      exact halve_g_ne p y hwf hpx h
    · intro h
      exact absurd h hpx
  · unfold DedupApp.IsRootP
    rw [halve_pf_ne p x _ y hy]

theorem halve_reaches_of (p : List Nat) (x : Nat) (hwf : DedupApp.WFa p)
    (hpx : DedupApp.pf p x ≠ x) :
    ∀ (k : Nat) (z r : Nat), (DedupApp.pf p)^[k] z = r → DedupApp.IsRootP p r →
      DedupApp.Reaches (p.set x (DedupApp.pf p (DedupApp.pf p x))) z r := by
  intro k
  induction k with
  | zero =>
    intro z r hk hr
    simp only [Function.iterate_zero, id_eq] at hk
    subst hk
    exact reaches_self _ z ((halve_root_iff p x hwf hpx z).mpr hr)
  | succ k ih =>
    intro z r hk hr
    rw [Function.iterate_succ_apply] at hk
    by_cases hz : z = x
    · subst hz
      have hrecur := ih (DedupApp.pf p z) r hk hr
      obtain ⟨j, hj, hr2⟩ := hrecur
      cases j with
      | zero =>
        simp only [Function.iterate_zero, id_eq] at hj
        refine ⟨1, ?_, hr2⟩
        have hself := halve_pf_self p z (DedupApp.pf p (DedupApp.pf p z)) (nonroot_lt p z hpx)
        show DedupApp.pf (p.set z (DedupApp.pf p (DedupApp.pf p z))) z = r
        rw [hself, ← hj]
        have : DedupApp.pf p (DedupApp.pf p z) = DedupApp.pf p z := by
          have hroot : DedupApp.IsRootP p (DedupApp.pf p z) := by
            rw [hj]
            exact (halve_root_iff p z hwf hpx r).mp hr2
          exact hroot
        rw [this]
      | succ j =>
        rw [Function.iterate_succ_apply] at hj
        have hpxne : DedupApp.pf p z ≠ z := hpx
        have hpf2 : DedupApp.pf (p.set z (DedupApp.pf p (DedupApp.pf p z))) (DedupApp.pf p z)
            = DedupApp.pf p (DedupApp.pf p z) := by
          refine halve_pf_ne p z _ (DedupApp.pf p z) ?_
          intro he
          exact hpxne he
        rw [hpf2] at hj
        refine reaches_cons _ z r ?_
        rw [halve_pf_self p z (DedupApp.pf p (DedupApp.pf p z)) (nonroot_lt p z hpx)]
        exact ⟨j, hj, hr2⟩
    · have hrecur := ih (DedupApp.pf p z) r hk hr
      refine reaches_cons _ z r ?_
      rw [halve_pf_ne p x _ z hz]
      exact hrecur

theorem halve_reaches_to (p : List Nat) (x : Nat) (hwf : DedupApp.WFa p)
    (hpx : DedupApp.pf p x ≠ x) :
    ∀ (k : Nat) (z r : Nat),
      (DedupApp.pf (p.set x (DedupApp.pf p (DedupApp.pf p x))))^[k] z = r →
      DedupApp.IsRootP (p.set x (DedupApp.pf p (DedupApp.pf p x))) r →
      DedupApp.Reaches p z r := by
  intro k
  induction k with
  | zero =>
    intro z r hk hr
    simp only [Function.iterate_zero, id_eq] at hk
    subst hk
    exact reaches_self p z ((halve_root_iff p x hwf hpx z).mp hr)
  | succ k ih =>
    intro z r hk hr
    rw [Function.iterate_succ_apply] at hk
    by_cases hz : z = x
    · subst hz
      rw [halve_pf_self p z (DedupApp.pf p (DedupApp.pf p z)) (nonroot_lt p z hpx)] at hk
      have hrecur := ih _ r hk hr
      exact reaches_cons p z r (reaches_cons p (DedupApp.pf p z) r hrecur)
    · rw [halve_pf_ne p x _ z hz] at hk
      exact reaches_cons p z r (ih _ r hk hr)

theorem halve_reaches_iff (p : List Nat) (x : Nat) (hwf : DedupApp.WFa p)
    (hpx : DedupApp.pf p x ≠ x) (z r : Nat) :
    DedupApp.Reaches (p.set x (DedupApp.pf p (DedupApp.pf p x))) z r
      ↔ DedupApp.Reaches p z r := by
  constructor
  · intro ⟨k, hk, hr⟩
    exact halve_reaches_to p x hwf hpx k z r hk hr
  · intro ⟨k, hk, hr⟩
    exact halve_reaches_of p x hwf hpx k z r hk hr

theorem halve_wfa (p : List Nat) (x : Nat) (hwf : DedupApp.WFa p)
    (hpx : DedupApp.pf p x ≠ x) :
    DedupApp.WFa (p.set x (DedupApp.pf p (DedupApp.pf p x))) := by
  intro z
  obtain ⟨r, hr⟩ := hwf z
  exact ⟨r, (halve_reaches_iff p x hwf hpx z r).mpr hr⟩

theorem wfr_set (p : List Nat) (hwfr : DedupApp.WFr p) (i v : Nat) (hv : v < p.length) :
    DedupApp.WFr (p.set i v) := by
  intro w hw
  rw [List.length_set]
  rcases List.mem_or_eq_of_mem_set hw with h | h
  · exact hwfr w h
  · omega

theorem halve_wfr (p : List Nat) (x : Nat) (hwfr : DedupApp.WFr p)
    (hpx : DedupApp.pf p x ≠ x) :
    DedupApp.WFr (p.set x (DedupApp.pf p (DedupApp.pf p x))) := by
  have hx : x < p.length := nonroot_lt p x hpx
  have hpxlt : DedupApp.pf p x < p.length := pf_lt p hwfr x hx
  exact wfr_set p hwfr x _ (pf_lt p hwfr _ hpxlt)

theorem halve_chain_avoid (p : List Nat) (x : Nat) (hwf : DedupApp.WFa p)
    (hpx : DedupApp.pf p x ≠ x) :
    ∀ m, (DedupApp.pf p)^[m] (DedupApp.pf p (DedupApp.pf p x)) ≠ x := by
  intro m hm
  have h2 : (DedupApp.pf p)^[m + 1 + 1] x = x := by
    have : (DedupApp.pf p)^[m + 2] x
        = (DedupApp.pf p)^[m] ((DedupApp.pf p)^[2] x) := by
      have hadd : m + 2 = m + 2 := rfl
      rw [Function.iterate_add_apply]
    rw [show m + 1 + 1 = m + 2 from rfl, this]
    exact hm
  exact no_cycle p hwf x hpx (m + 1) h2

theorem halve_iter_eq (p : List Nat) (x : Nat) (hwf : DedupApp.WFa p)
    (hpx : DedupApp.pf p x ≠ x) :
    ∀ j, (DedupApp.pf (p.set x (DedupApp.pf p (DedupApp.pf p x))))^[j]
        (DedupApp.pf p (DedupApp.pf p x))
      = (DedupApp.pf p)^[j] (DedupApp.pf p (DedupApp.pf p x)) := by
  intro j
  induction j with
  | zero => rfl
  | succ j ih =>
    rw [Function.iterate_succ_apply', Function.iterate_succ_apply', ih]
    exact halve_pf_ne p x _ _ (halve_chain_avoid p x hwf hpx j)

theorem exists_root_iter (p : List Nat) (hwf : DedupApp.WFa p) (x : Nat) :
    ∃ k, DedupApp.IsRootP p ((DedupApp.pf p)^[k] x) := by
  obtain ⟨r, k, hk, hr⟩ := hwf x
  exact ⟨k, by rw [hk]; exact hr⟩

theorem findLoop_spec :
    ∀ (fuel : Nat) (p : List Nat) (x : Nat), DedupApp.WFa p →
      ∀ (hex : ∃ k, DedupApp.IsRootP p ((DedupApp.pf p)^[k] x)),
      Nat.find hex ≤ fuel →
      DedupApp.Reaches p x (DedupApp.findLoop fuel p x).1
      ∧ (∀ z r, DedupApp.Reaches (DedupApp.findLoop fuel p x).2 z r
          ↔ DedupApp.Reaches p z r)
      ∧ (DedupApp.findLoop fuel p x).2.length = p.length
      ∧ (DedupApp.WFr p → DedupApp.WFr (DedupApp.findLoop fuel p x).2) := by
  intro fuel
  induction fuel with
  | zero =>
    intro p x hwf hex hle
    have h0 : Nat.find hex = 0 := Nat.le_zero.mp hle
    have hroot := Nat.find_spec hex
    rw [h0] at hroot
    simp only [Function.iterate_zero, id_eq] at hroot
    exact ⟨reaches_self p x hroot, fun z r => Iff.rfl, rfl, id⟩
  | succ fuel ih =>
    intro p x hwf hex hle
    by_cases hpx : DedupApp.pf p x = x
    · have hout : DedupApp.findLoop (fuel + 1) p x = (x, p) := by
        unfold DedupApp.findLoop
        rw [if_pos hpx]
      rw [hout]
      exact ⟨reaches_self p x hpx, fun z r => Iff.rfl, rfl, id⟩
    · have hout : DedupApp.findLoop (fuel + 1) p x
          = DedupApp.findLoop fuel (p.set x (DedupApp.pf p (DedupApp.pf p x)))
            (DedupApp.pf p (DedupApp.pf p x)) := by
        unfold DedupApp.findLoop
        rw [if_neg hpx]
        rw [DedupApp.findLoop.eq_def]
      have hwf2 := halve_wfa p x hwf hpx
      have hex2 := exists_root_iter _ hwf2 (DedupApp.pf p (DedupApp.pf p x))
      have hK1 : 1 ≤ Nat.find hex := by
        by_contra hc
        have h0 : Nat.find hex = 0 := by omega
        have := Nat.find_spec hex
        rw [h0] at this
        simp only [Function.iterate_zero, id_eq] at this
        exact hpx this
      have hbound : Nat.find hex2 ≤ fuel := by
        by_cases hK2 : 2 ≤ Nat.find hex
        · have hroot := Nat.find_spec hex
          have hsplit : Nat.find hex = (Nat.find hex - 2) + 2 := by omega
          rw [hsplit, Function.iterate_add_apply] at hroot
          have hiter2 : (DedupApp.pf p)^[2] x = DedupApp.pf p (DedupApp.pf p x) := rfl
          rw [hiter2] at hroot
          have hroot2 : DedupApp.IsRootP
              (p.set x (DedupApp.pf p (DedupApp.pf p x)))
              ((DedupApp.pf (p.set x (DedupApp.pf p (DedupApp.pf p x))))^[Nat.find hex - 2]
                (DedupApp.pf p (DedupApp.pf p x))) := by
            rw [halve_iter_eq p x hwf hpx]
            exact (halve_root_iff p x hwf hpx _).mpr hroot
          have := Nat.find_min' hex2 hroot2
          omega
        · have hKeq : Nat.find hex = 1 := by omega
          have hroot := Nat.find_spec hex
          rw [hKeq] at hroot
          have hiter1 : (DedupApp.pf p)^[1] x = DedupApp.pf p x := rfl
          rw [hiter1] at hroot
          have hgeq : DedupApp.pf p (DedupApp.pf p x) = DedupApp.pf p x := hroot
          have hroot2 : DedupApp.IsRootP
              (p.set x (DedupApp.pf p (DedupApp.pf p x)))
              ((DedupApp.pf (p.set x (DedupApp.pf p (DedupApp.pf p x))))^[0]
                (DedupApp.pf p (DedupApp.pf p x))) := by
            simp only [Function.iterate_zero, id_eq]
            nth_rewrite 2 [hgeq]
            exact (halve_root_iff p x hwf hpx _).mpr hroot
          have := Nat.find_min' hex2 hroot2
          omega
      obtain ⟨hreach, hiff, hlen, hwfr⟩ :=
        ih (p.set x (DedupApp.pf p (DedupApp.pf p x)))
          (DedupApp.pf p (DedupApp.pf p x)) hwf2 hex2 hbound
      rw [hout]
      refine ⟨?_, ?_, ?_, ?_⟩
      · have h1 : DedupApp.Reaches p (DedupApp.pf p (DedupApp.pf p x)) _ :=
          (halve_reaches_iff p x hwf hpx _ _).mp hreach
        exact reaches_cons p x _ (reaches_cons p (DedupApp.pf p x) _ h1)
      · intro z r
        exact (hiff z r).trans (halve_reaches_iff p x hwf hpx z r)
      · rw [hlen, List.length_set]
      · intro h
        exact hwfr (halve_wfr p x h hpx)

theorem reaches_lt (p : List Nat) (hwfr : DedupApp.WFr p) (x r : Nat)
    (hx : x < p.length) (h : DedupApp.Reaches p x r) : r < p.length := by
  obtain ⟨k, hk, hr2⟩ := h
  clear hr2
  subst hk
  induction k with
  | zero => exact hx
  | succ k ih =>
    rw [Function.iterate_succ_apply']
    exact pf_lt p hwfr _ ih

theorem sameRoot_transfer (p1 p2 : List Nat)
    (hiff : ∀ z r, DedupApp.Reaches p2 z r ↔ DedupApp.Reaches p1 z r) (z w : Nat)
    (h : DedupApp.sameRoot p1 z w) : DedupApp.sameRoot p2 z w := by
  obtain ⟨r, h1, h2⟩ := h
  exact ⟨r, (hiff z r).mpr h1, (hiff w r).mpr h2⟩

theorem find_spec (d : DedupApp.DSU) (x : Nat) (hwf : DedupApp.WFa d.parent) :
    DedupApp.Reaches d.parent x (d.find x).1
    ∧ (∀ z r, DedupApp.Reaches (d.find x).2.parent z r ↔ DedupApp.Reaches d.parent z r)
    ∧ (d.find x).2.parent.length = d.parent.length
    ∧ (d.find x).2.rank = d.rank
    ∧ (DedupApp.WFr d.parent → DedupApp.WFr (d.find x).2.parent) := by
  have hex := exists_root_iter d.parent hwf x
  have hle : Nat.find hex ≤ d.parent.length := depth_le_length d.parent x hex
  obtain ⟨h1, h2, h3, h4⟩ := findLoop_spec d.parent.length d.parent x hwf hex hle
  exact ⟨h1, h2, h3, rfl, h4⟩

theorem link_reaches (p : List Nat) (X Y : Nat)
    (hX : DedupApp.IsRootP p X) (hY : DedupApp.IsRootP p Y) (hXY : X ≠ Y)
    (hXlen : X < p.length) :
    ∀ (k z r : Nat), (DedupApp.pf p)^[k] z = r → DedupApp.IsRootP p r →
      DedupApp.Reaches (p.set X Y) z (if r = X then Y else r) := by
  have hrootY : DedupApp.IsRootP (p.set X Y) Y := by
    show DedupApp.pf (p.set X Y) Y = Y
    rw [halve_pf_ne p X Y Y (Ne.symm hXY)]
    exact hY
  have hbase : DedupApp.Reaches (p.set X Y) X Y := by
    refine ⟨1, ?_, hrootY⟩
    show DedupApp.pf (p.set X Y) X = Y
    exact halve_pf_self p X Y hXlen
  intro k
  induction k with
  | zero =>
    intro z r hk hr
    simp only [Function.iterate_zero, id_eq] at hk
    subst hk
    by_cases hrX : z = X
    · rw [if_pos hrX, hrX]
      exact hbase
    · rw [if_neg hrX]
      refine reaches_self _ z ?_
      show DedupApp.pf (p.set X Y) z = z
      rw [halve_pf_ne p X Y z hrX]
      exact hr
  | succ k ih =>
    intro z r hk hr
    rw [Function.iterate_succ_apply] at hk
    by_cases hzX : z = X
    · subst hzX
      have hpfz : DedupApp.pf p z = z := hX
      rw [hpfz] at hk
      have hrz : r = z := by
        rw [← hk]
        exact root_iter_fixed p z hX k
      rw [hrz, if_pos rfl]
      exact hbase
    · have hrec := ih (DedupApp.pf p z) r hk hr
      refine reaches_cons _ z _ ?_
      rw [halve_pf_ne p X Y z hzX]
      exact hrec

theorem link_spec (p : List Nat) (X Y : Nat) (hwf : DedupApp.WFa p)
    (hX : DedupApp.IsRootP p X) (hY : DedupApp.IsRootP p Y) (hXY : X ≠ Y)
    (hXlen : X < p.length) (hYlen : Y < p.length) :
    DedupApp.WFa (p.set X Y)
    ∧ (DedupApp.WFr p → DedupApp.WFr (p.set X Y))
    ∧ (p.set X Y).length = p.length
    ∧ (∀ z w, DedupApp.sameRoot p z w → DedupApp.sameRoot (p.set X Y) z w)
    ∧ (∀ z r, DedupApp.Reaches p z r →
        DedupApp.Reaches (p.set X Y) z (if r = X then Y else r)) := by
  have hmain : ∀ z r, DedupApp.Reaches p z r →
      DedupApp.Reaches (p.set X Y) z (if r = X then Y else r) := by
    intro z r ⟨k, hk, hr⟩
    exact link_reaches p X Y hX hY hXY hXlen k z r hk hr
  refine ⟨?_, ?_, List.length_set p X Y, ?_, hmain⟩
  · intro z
    obtain ⟨r, hr⟩ := hwf z
    exact ⟨if r = X then Y else r, hmain z r hr⟩
  · intro h
    exact wfr_set p h X Y hYlen
  · intro z w ⟨r, h1, h2⟩
    exact ⟨if r = X then Y else r, hmain z r h1, hmain w r h2⟩

theorem union_spec (d : DedupApp.DSU) (a b : Nat) (hwf : DedupApp.WFa d.parent)
    (hwfr : DedupApp.WFr d.parent) (ha : a < d.parent.length) (hb : b < d.parent.length) :
    DedupApp.WFa (d.union a b).parent
    ∧ DedupApp.WFr (d.union a b).parent
    ∧ (d.union a b).parent.length = d.parent.length
    ∧ (∀ z w, DedupApp.sameRoot d.parent z w → DedupApp.sameRoot (d.union a b).parent z w)
    ∧ DedupApp.sameRoot (d.union a b).parent a b := by
  obtain ⟨hra, hiff1, hlen1, hrank1, hwfr1⟩ := find_spec d a hwf
  have hwf1 : DedupApp.WFa (d.find a).2.parent :=
    fun z => (hwf z).imp (fun r hr => (hiff1 z r).mpr hr)
  obtain ⟨hrb, hiff2, hlen2, hrank2, hwfr2⟩ := find_spec (d.find a).2 b hwf1
  have hwf2 : DedupApp.WFa ((d.find a).2.find b).2.parent :=
    fun z => (hwf1 z).imp (fun r hr => (hiff2 z r).mpr hr)
  have hwfr2all : DedupApp.WFr ((d.find a).2.find b).2.parent := hwfr2 (hwfr1 hwfr)
  have hlen : ((d.find a).2.find b).2.parent.length = d.parent.length := hlen2.trans hlen1
  have hiff : ∀ z r, DedupApp.Reaches ((d.find a).2.find b).2.parent z r
      ↔ DedupApp.Reaches d.parent z r :=
    fun z r => (hiff2 z r).trans (hiff1 z r)
  have hreach_a2 : DedupApp.Reaches ((d.find a).2.find b).2.parent a (d.find a).1 :=
    (hiff a _).mpr hra
  have hreach_b2 : DedupApp.Reaches ((d.find a).2.find b).2.parent b ((d.find a).2.find b).1 :=
    (hiff2 b _).mpr hrb
  have hroot_a2 : DedupApp.IsRootP ((d.find a).2.find b).2.parent (d.find a).1 := by
    obtain ⟨k, _, h⟩ := hreach_a2
    exact h
  have hroot_b2 : DedupApp.IsRootP ((d.find a).2.find b).2.parent ((d.find a).2.find b).1 := by
    obtain ⟨k, _, h⟩ := hreach_b2
    exact h
  have hra_lt : (d.find a).1 < ((d.find a).2.find b).2.parent.length :=
    reaches_lt _ hwfr2all a _ (by rw [hlen]; exact ha) hreach_a2
  have hrb_lt : ((d.find a).2.find b).1 < ((d.find a).2.find b).2.parent.length :=
    reaches_lt _ hwfr2all b _ (by rw [hlen]; exact hb) hreach_b2
  by_cases hrr : (d.find a).1 = ((d.find a).2.find b).1
  · have hu : d.union a b = ((d.find a).2.find b).2 := by
      unfold DedupApp.DSU.union
      rw [if_pos hrr]
    rw [hu]
    refine ⟨hwf2, hwfr2all, hlen, ?_, ?_⟩
    · intro z w h
      exact sameRoot_transfer _ _ hiff z w h
    · exact ⟨(d.find a).1, hreach_a2, by rw [hrr]; exact hreach_b2⟩
  · have hlink : ∀ X Y, DedupApp.IsRootP ((d.find a).2.find b).2.parent X →
        DedupApp.IsRootP ((d.find a).2.find b).2.parent Y → X ≠ Y →
        X < ((d.find a).2.find b).2.parent.length →
        Y < ((d.find a).2.find b).2.parent.length →
        DedupApp.WFa (((d.find a).2.find b).2.parent.set X Y)
        ∧ DedupApp.WFr (((d.find a).2.find b).2.parent.set X Y)
        ∧ (((d.find a).2.find b).2.parent.set X Y).length = d.parent.length
        ∧ (∀ z w, DedupApp.sameRoot d.parent z w →
            DedupApp.sameRoot (((d.find a).2.find b).2.parent.set X Y) z w)
        ∧ (∀ z r, DedupApp.Reaches ((d.find a).2.find b).2.parent z r →
            DedupApp.Reaches (((d.find a).2.find b).2.parent.set X Y) z
              (if r = X then Y else r)) := by
      intro X Y hXr hYr hXY hXl hYl
      obtain ⟨l1, l2, l3, l4, l5⟩ := link_spec _ X Y hwf2 hXr hYr hXY hXl hYl
      refine ⟨l1, l2 hwfr2all, l3.trans hlen, ?_, l5⟩
      intro z w h
      exact l4 z w (sameRoot_transfer _ _ hiff z w h)
    by_cases hc1 : ((d.find a).2.find b).2.rank.getD (d.find a).1 0
        < ((d.find a).2.find b).2.rank.getD ((d.find a).2.find b).1 0
    · have hu : d.union a b = ⟨((d.find a).2.find b).2.parent.set (d.find a).1
          ((d.find a).2.find b).1, ((d.find a).2.find b).2.rank⟩ := by
        unfold DedupApp.DSU.union
        rw [if_neg hrr, if_pos hc1]
      rw [hu]
      obtain ⟨l1, l2, l3, l4, l5⟩ := hlink _ _ hroot_a2 hroot_b2 hrr hra_lt hrb_lt
      refine ⟨l1, l2, l3, l4, ?_⟩
      refine ⟨((d.find a).2.find b).1, ?_, ?_⟩
      · have := l5 a (d.find a).1 hreach_a2
        rw [if_pos rfl] at this
        exact this
      · have := l5 b ((d.find a).2.find b).1 hreach_b2
        rw [if_neg (fun h => hrr h.symm)] at this
        exact this
    · by_cases hc2 : ((d.find a).2.find b).2.rank.getD ((d.find a).2.find b).1 0
          < ((d.find a).2.find b).2.rank.getD (d.find a).1 0
      · have hu : d.union a b = ⟨((d.find a).2.find b).2.parent.set ((d.find a).2.find b).1
            (d.find a).1, ((d.find a).2.find b).2.rank⟩ := by
          unfold DedupApp.DSU.union
          rw [if_neg hrr, if_neg hc1, if_pos hc2]
        rw [hu]
        obtain ⟨l1, l2, l3, l4, l5⟩ :=
          hlink _ _ hroot_b2 hroot_a2 (fun h => hrr h.symm) hrb_lt hra_lt
        refine ⟨l1, l2, l3, l4, ?_⟩
        refine ⟨(d.find a).1, ?_, ?_⟩
        · have := l5 a (d.find a).1 hreach_a2
          rw [if_neg hrr] at this
          exact this
        · have := l5 b ((d.find a).2.find b).1 hreach_b2
          rw [if_pos rfl] at this
          exact this
      · have hu : d.union a b = ⟨((d.find a).2.find b).2.parent.set ((d.find a).2.find b).1
            (d.find a).1, ((d.find a).2.find b).2.rank.set (d.find a).1
              (((d.find a).2.find b).2.rank.getD (d.find a).1 0 + 1)⟩ := by
          unfold DedupApp.DSU.union
          rw [if_neg hrr, if_neg hc1, if_neg hc2]
        rw [hu]
        obtain ⟨l1, l2, l3, l4, l5⟩ :=
          hlink _ _ hroot_b2 hroot_a2 (fun h => hrr h.symm) hrb_lt hra_lt
        refine ⟨l1, l2, l3, l4, ?_⟩
        refine ⟨(d.find a).1, ?_, ?_⟩
        · have := l5 a (d.find a).1 hreach_a2
          rw [if_neg hrr] at this
          exact this
        · have := l5 b ((d.find a).2.find b).1 hreach_b2
          rw [if_pos rfl] at this
          exact this

theorem pf_range (n x : Nat) : DedupApp.pf (List.range n) x = x := by
  by_cases h : x < n
  · rw [pf_eq_getElem _ _ (by simpa using h)]
    simp
  · exact pf_oob _ _ (by simpa using h)

theorem dsuInit_wfa (n : Nat) : DedupApp.WFa (DedupApp.dsuInit n).parent := by
  intro x
  exact ⟨x, 0, rfl, pf_range n x⟩

theorem dsuInit_wfr (n : Nat) : DedupApp.WFr (DedupApp.dsuInit n).parent := by
  intro v hv
  simp only [DedupApp.dsuInit] at hv ⊢
  rw [List.length_range]
  exact List.mem_range.mp hv

theorem unionPairs_spec :
    ∀ (edges : List (Nat × Nat)) (d : DedupApp.DSU),
      DedupApp.WFa d.parent → DedupApp.WFr d.parent →
      (∀ e ∈ edges, e.1 < d.parent.length ∧ e.2 < d.parent.length) →
      DedupApp.WFa (DedupApp.unionPairs d edges).parent
      ∧ DedupApp.WFr (DedupApp.unionPairs d edges).parent
      ∧ (DedupApp.unionPairs d edges).parent.length = d.parent.length
      ∧ (∀ z w, DedupApp.sameRoot d.parent z w →
          DedupApp.sameRoot (DedupApp.unionPairs d edges).parent z w) := by
  intro edges
  induction edges with
  | nil =>
    intro d hwf hwfr _
    exact ⟨hwf, hwfr, rfl, fun z w h => h⟩
  | cons e rest ih =>
    intro d hwf hwfr hbounds
    have hstep : DedupApp.unionPairs d (e :: rest)
        = DedupApp.unionPairs (if e.1 ≠ e.2 then d.union e.1 e.2 else d) rest := rfl
    rw [hstep]
    by_cases he : e.1 ≠ e.2
    · rw [if_pos he]
      obtain ⟨he1, he2⟩ := hbounds e (List.mem_cons_self _ _)
      obtain ⟨u1, u2, u3, u4, _⟩ := union_spec d e.1 e.2 hwf hwfr he1 he2
      obtain ⟨r1, r2, r3, r4⟩ := ih (d.union e.1 e.2) u1 u2
        (fun e2 he2m => by
          rw [u3]
          exact hbounds e2 (List.mem_cons_of_mem e he2m))
      exact ⟨r1, r2, r3.trans u3, fun z w h => r4 z w (u4 z w h)⟩
    · rw [if_neg he]
      exact ih d hwf hwfr (fun e2 he2m => hbounds e2 (List.mem_cons_of_mem e he2m))

theorem unionPairs_connect :
    ∀ (edges : List (Nat × Nat)) (d : DedupApp.DSU),
      DedupApp.WFa d.parent → DedupApp.WFr d.parent →
      (∀ e ∈ edges, e.1 < d.parent.length ∧ e.2 < d.parent.length) →
      ∀ a b, (a, b) ∈ edges →
        DedupApp.sameRoot (DedupApp.unionPairs d edges).parent a b := by
  intro edges
  induction edges with
  | nil =>
    intro d _ _ _ a b hmem
    simp at hmem
  | cons e rest ih =>
    intro d hwf hwfr hbounds a b hmem
    have hstep : DedupApp.unionPairs d (e :: rest)
        = DedupApp.unionPairs (if e.1 ≠ e.2 then d.union e.1 e.2 else d) rest := rfl
    rw [hstep]
    have hrest_bounds : ∀ (d2 : DedupApp.DSU), d2.parent.length = d.parent.length →
        ∀ e2 ∈ rest, e2.1 < d2.parent.length ∧ e2.2 < d2.parent.length := by
      intro d2 hl e2 he2m
      rw [hl]
      exact hbounds e2 (List.mem_cons_of_mem e he2m)
    rcases List.mem_cons.mp hmem with heq | hmem2
    · by_cases he : e.1 ≠ e.2
      · rw [if_pos he]
        obtain ⟨he1, he2⟩ := hbounds e (List.mem_cons_self _ _)
        obtain ⟨u1, u2, u3, u4, u5⟩ := union_spec d e.1 e.2 hwf hwfr he1 he2
        obtain ⟨_, _, _, r4⟩ := unionPairs_spec rest (d.union e.1 e.2) u1 u2
          (hrest_bounds _ u3)
        have hab : a = e.1 ∧ b = e.2 := by
          constructor
          · rw [← heq]
          · rw [← heq]
        rw [hab.1, hab.2]
        exact r4 e.1 e.2 u5
      · rw [if_neg he]
        push_neg at he
        have hab : a = e.1 ∧ b = e.2 := by
          constructor
          · rw [← heq]
          · rw [← heq]
        obtain ⟨w1, _, _, _⟩ := unionPairs_spec rest d hwf hwfr (hrest_bounds d rfl)
        rw [hab.1, hab.2, ← he]
        exact sameRoot_self _ w1 e.1
    · by_cases he : e.1 ≠ e.2
      · rw [if_pos he]
        obtain ⟨he1, he2⟩ := hbounds e (List.mem_cons_self _ _)
        obtain ⟨u1, u2, u3, _, _⟩ := union_spec d e.1 e.2 hwf hwfr he1 he2
        exact ih (d.union e.1 e.2) u1 u2 (hrest_bounds _ u3) a b hmem2
      · rw [if_neg he]
        exact ih d hwf hwfr (hrest_bounds d rfl) a b hmem2

theorem clusterKeysLoop_spec :
    ∀ (is : List Nat) (d : DedupApp.DSU), DedupApp.WFa d.parent →
      (DedupApp.clusterKeysLoop is d).1.length = is.length
      ∧ ∀ k, k < is.length → ∀ r, DedupApp.Reaches d.parent (is.getD k 0) r →
          (DedupApp.clusterKeysLoop is d).1.getD k 0 = r := by
  intro is
  induction is with
  | nil =>
    intro d _
    exact ⟨rfl, fun k hk => absurd hk (by simp)⟩
  | cons i is ih =>
    intro d hwf
    obtain ⟨hfr, hfiff, _, _, _⟩ := find_spec d i hwf
    have hwf2 : DedupApp.WFa (d.find i).2.parent :=
      fun z => (hwf z).imp (fun r hr => (hfiff z r).mpr hr)
    obtain ⟨ihlen, ihkeys⟩ := ih (d.find i).2 hwf2
    have hstep : DedupApp.clusterKeysLoop (i :: is) d
        = ((d.find i).1 :: (DedupApp.clusterKeysLoop is (d.find i).2).1,
            (DedupApp.clusterKeysLoop is (d.find i).2).2) := rfl
    rw [hstep]
    refine ⟨by simp [ihlen], ?_⟩
    intro k hk r hr
    cases k with
    | zero =>
      simp only [List.getD_cons_zero] at hr ⊢
      exact reaches_unique d.parent i _ r hfr hr
    | succ k =>
      simp only [List.getD_cons_succ] at hr ⊢
      exact ihkeys k (by simpa using hk) r ((hfiff _ r).mpr hr)

theorem insertGroup_fsts :
    ∀ (acc : List (Nat × List Nat)) (k i : Nat),
      (DedupApp.insertGroup acc k i).map Prod.fst
        = if k ∈ acc.map Prod.fst then acc.map Prod.fst
          else acc.map Prod.fst ++ [k] := by
  intro acc
  induction acc with
  | nil => intro k i; simp [DedupApp.insertGroup]
  | cons e rest ih =>
    intro k i
    obtain ⟨k2, ms⟩ := e
    by_cases hk : k2 = k
    · subst hk
      simp [DedupApp.insertGroup]
    · simp only [DedupApp.insertGroup, hk, if_false, List.map_cons, ih k i]
      by_cases hmem : k ∈ rest.map Prod.fst
      · rw [if_pos hmem, if_pos (by simp [hmem])]
      · rw [if_neg hmem, if_neg (by simp [hmem, Ne.symm hk])]
        simp

theorem insertGroup_fsts_nodup (acc : List (Nat × List Nat)) (k i : Nat)
    (h : (acc.map Prod.fst).Nodup) :
    ((DedupApp.insertGroup acc k i).map Prod.fst).Nodup := by
  rw [insertGroup_fsts]
  by_cases hk : k ∈ acc.map Prod.fst
  · rw [if_pos hk]
    exact h
  · rw [if_neg hk]
    rw [List.nodup_append]
    exact ⟨h, List.nodup_singleton k, by simpa using hk⟩

theorem insertGroup_mem_old :
    ∀ (acc : List (Nat × List Nat)) (k i k2 : Nat) (ms2 : List Nat) (j : Nat),
      (k2, ms2) ∈ acc → j ∈ ms2 →
      ∃ ms3, (k2, ms3) ∈ DedupApp.insertGroup acc k i ∧ j ∈ ms3 := by
  intro acc
  induction acc with
  | nil => intro k i k2 ms2 j hm _; simp at hm
  | cons e rest ih =>
    intro k i k2 ms2 j hm hj
    obtain ⟨k3, ms⟩ := e
    by_cases hk : k3 = k
    · subst hk
      simp only [DedupApp.insertGroup, if_pos rfl]
      rcases List.mem_cons.mp hm with heq | hm2
      · have h1 : k2 = k3 := (Prod.mk.injEq _ _ _ _ ▸ heq).1
        have h2 : ms2 = ms := (Prod.mk.injEq _ _ _ _ ▸ heq).2
        subst h1
        exact ⟨ms ++ [i], List.mem_cons_self _ _, by rw [← h2]; exact List.mem_append_left _ hj⟩
      · exact ⟨ms2, List.mem_cons_of_mem _ hm2, hj⟩
    · simp only [DedupApp.insertGroup, hk, if_false]
      rcases List.mem_cons.mp hm with heq | hm2
      · exact ⟨ms2, by rw [heq]; exact List.mem_cons_self _ _, hj⟩
      · obtain ⟨ms3, hms3, hjms3⟩ := ih k i k2 ms2 j hm2 hj
        exact ⟨ms3, List.mem_cons_of_mem _ hms3, hjms3⟩

theorem insertGroup_mem_new :
    ∀ (acc : List (Nat × List Nat)) (k i : Nat),
      ∃ ms3, (k, ms3) ∈ DedupApp.insertGroup acc k i ∧ i ∈ ms3 := by
  intro acc
  induction acc with
  | nil => intro k i; exact ⟨[i], List.mem_singleton.mpr rfl, List.mem_singleton.mpr rfl⟩
  | cons e rest ih =>
    intro k i
    obtain ⟨k3, ms⟩ := e
    by_cases hk : k3 = k
    · subst hk
      simp only [DedupApp.insertGroup, if_pos rfl]
      exact ⟨ms ++ [i], List.mem_cons_self _ _, List.mem_append_right _ (by simp)⟩
    · simp only [DedupApp.insertGroup, hk, if_false]
      obtain ⟨ms3, hms3, hims3⟩ := ih k i
      exact ⟨ms3, List.mem_cons_of_mem _ hms3, hims3⟩

theorem assoc_nodup_unique :
    ∀ (l : List (Nat × List Nat)) (k : Nat) (a b : List Nat),
      (l.map Prod.fst).Nodup → (k, a) ∈ l → (k, b) ∈ l → a = b := by
  intro l
  induction l with
  | nil => intro k a b _ hm; simp at hm
  | cons e rest ih =>
    intro k a b hnd hma hmb
    obtain ⟨k3, ms⟩ := e
    rw [List.map_cons, List.nodup_cons] at hnd
    rcases List.mem_cons.mp hma with heqa | hma2
    · have hka : k = k3 := (Prod.mk.injEq _ _ _ _ ▸ heqa).1
      have haa : a = ms := (Prod.mk.injEq _ _ _ _ ▸ heqa).2
      rcases List.mem_cons.mp hmb with heqb | hmb2
      · have hbb : b = ms := (Prod.mk.injEq _ _ _ _ ▸ heqb).2
        rw [haa, hbb]
      · exfalso
        refine hnd.1 ?_
        rw [hka] at hmb2
        exact List.mem_map.mpr ⟨(k3, b), hmb2, rfl⟩
    · rcases List.mem_cons.mp hmb with heqb | hmb2
      · exfalso
        have hkb : k = k3 := (Prod.mk.injEq _ _ _ _ ▸ heqb).1
        refine hnd.1 ?_
        rw [hkb] at hma2
        exact List.mem_map.mpr ⟨(k3, a), hma2, rfl⟩
      · exact ih k a b hnd.2 hma2 hmb2

theorem foldl_insertGroup_nodup :
    ∀ (ps : List (Nat × Nat)) (acc : List (Nat × List Nat)),
      (acc.map Prod.fst).Nodup →
      ((ps.foldl (fun a q => DedupApp.insertGroup a q.2 q.1) acc).map Prod.fst).Nodup := by
  intro ps
  induction ps with
  | nil => intro acc h; exact h
  | cons q rest ih =>
    intro acc h
    exact ih _ (insertGroup_fsts_nodup acc q.2 q.1 h)

theorem foldl_insertGroup_mem_old :
    ∀ (ps : List (Nat × Nat)) (acc : List (Nat × List Nat)) (k2 : Nat) (ms2 : List Nat)
      (j : Nat), (k2, ms2) ∈ acc → j ∈ ms2 →
      ∃ ms3, (k2, ms3) ∈ ps.foldl (fun a q => DedupApp.insertGroup a q.2 q.1) acc
        ∧ j ∈ ms3 := by
  intro ps
  induction ps with
  | nil => intro acc k2 ms2 j hm hj; exact ⟨ms2, hm, hj⟩
  | cons q rest ih =>
    intro acc k2 ms2 j hm hj
    obtain ⟨ms3, hm3, hj3⟩ := insertGroup_mem_old acc q.2 q.1 k2 ms2 j hm hj
    exact ih _ k2 ms3 j hm3 hj3

theorem foldl_insertGroup_mem :
    ∀ (ps : List (Nat × Nat)) (acc : List (Nat × List Nat)) (i k : Nat),
      (i, k) ∈ ps →
      ∃ ms, (k, ms) ∈ ps.foldl (fun a q => DedupApp.insertGroup a q.2 q.1) acc
        ∧ i ∈ ms := by
  intro ps
  induction ps with
  | nil => intro acc i k hm; simp at hm
  | cons q rest ih =>
    intro acc i k hm
    rcases List.mem_cons.mp hm with heq | hm2
    · have h1 : i = q.1 := (Prod.mk.injEq _ _ _ _ ▸ heq).1
      have h2 : k = q.2 := (Prod.mk.injEq _ _ _ _ ▸ heq).2
      subst h1
      subst h2
      obtain ⟨ms3, hm3, hi3⟩ := insertGroup_mem_new acc q.2 q.1
      exact foldl_insertGroup_mem_old rest _ q.2 ms3 q.1 hm3 hi3
    · exact ih _ i k hm2

theorem enumFrom_getD_mem :
    ∀ (keys : List Nat) (n i : Nat), i < keys.length →
      (n + i, keys.getD i 0) ∈ keys.enumFrom n := by
  intro keys
  induction keys with
  | nil => intro n i hi; simp at hi
  | cons k ks ih =>
    intro n i hi
    cases i with
    | zero =>
      simp only [Nat.add_zero, List.getD_cons_zero]
      exact List.mem_cons_self _ _
    | succ i =>
      have := ih (n + 1) i (by simpa using hi)
      simp only [List.getD_cons_succ]
      refine List.mem_cons_of_mem _ ?_
      have harith : n + (i + 1) = n + 1 + i := by omega
      rw [harith]
      exact this

theorem groupByKey_mem (keys : List Nat) (i : Nat) (hi : i < keys.length) :
    ∃ ms, (keys.getD i 0, ms) ∈ DedupApp.groupByKey keys ∧ i ∈ ms := by
  unfold DedupApp.groupByKey
  refine foldl_insertGroup_mem keys.enum [] i (keys.getD i 0) ?_
  have := enumFrom_getD_mem keys 0 i hi
  simpa using this

theorem groupByKey_fsts_nodup (keys : List Nat) :
    ((DedupApp.groupByKey keys).map Prod.fst).Nodup := by
  unfold DedupApp.groupByKey
  exact foldl_insertGroup_nodup keys.enum [] (by simp)

theorem neighLists_length (embs : List (List ℚ)) (t : ℚ) :
    (DedupApp.neighLists embs t).length = embs.length := by
  simp [DedupApp.neighLists]

theorem neighLists_getD (embs : List (List ℚ)) (t : ℚ) (A : Nat)
    (hA : A < embs.length) :
    (DedupApp.neighLists embs t).getD A []
      = (List.range embs.length).filter (fun j =>
          @decide (cosDistR ((DedupApp.rowNormalize embs).getD A [])
              ((DedupApp.rowNormalize embs).getD j []) ≤ ((1 - t : ℚ) : ℝ))
            (Classical.propDecidable _)) := by
  simp only [DedupApp.neighLists]
  rw [List.getD_eq_getElem _ _ (by simpa using hA)]
  simp

theorem mem_neigh_iff (embs : List (List ℚ)) (t : ℚ) (A B : Nat)
    (hA : A < embs.length) :
    B ∈ (DedupApp.neighLists embs t).getD A []
      ↔ B < embs.length
        ∧ cosDistR ((DedupApp.rowNormalize embs).getD A [])
            ((DedupApp.rowNormalize embs).getD B []) ≤ ((1 - t : ℚ) : ℝ) := by
  rw [neighLists_getD embs t A hA]
  simp [List.mem_filter, List.mem_range]

theorem edgesOf_mem (neigh : List (List Nat)) (A B : Nat)
    (hA : A < neigh.length) (hB : B ∈ neigh.getD A []) :
    (A, B) ∈ DedupApp.edgesOf neigh := by
  unfold DedupApp.edgesOf
  rw [List.mem_flatMap]
  exact ⟨A, List.mem_range.mpr hA, List.mem_map.mpr ⟨B, hB, rfl⟩⟩

theorem edgesOf_neigh_bounds (embs : List (List ℚ)) (t : ℚ) :
    ∀ e ∈ DedupApp.edgesOf (DedupApp.neighLists embs t),
      e.1 < embs.length ∧ e.2 < embs.length := by
  intro e he
  unfold DedupApp.edgesOf at he
  rw [List.mem_flatMap] at he
  obtain ⟨i, hi, hmem⟩ := he
  rw [List.mem_map] at hmem
  obtain ⟨j, hj, hej⟩ := hmem
  rw [← hej]
  have hi2 : i < embs.length := by
    have := List.mem_range.mp hi
    rwa [neighLists_length] at this
  refine ⟨hi2, ?_⟩
  rw [neighLists_getD embs t i hi2] at hj
  exact List.mem_range.mp (List.mem_filter.mp hj).1

theorem range_getD_self (n k : Nat) (hk : k < n) :
    (List.range n).getD k 0 = k := by
  rw [List.getD_eq_getElem _ _ (by simpa using hk)]
  simp

/-- C3: the clusters of build_clusters are transitively closed.  If A is
within the cosine-distance radius of B and B is within the radius of C
(on the zero-norm-adjusted normalized rows, exactly the condition under
which the union loop unions the pairs), then the cluster dictionary
returned by build_clusters contains a cluster holding both A and C,
with no condition on the distance between A and C. -/
theorem c3_clusters_transitively_closed (embs : List (List ℚ)) (t : ℚ)
    (A B C : Nat) (cl : List (Nat × List Nat))
    (hok : DedupApp.build_clusters embs t = Except.ok cl)
    (hA : A < embs.length) (hB : B < embs.length) (hC : C < embs.length)
    (hAB : cosDistR ((DedupApp.rowNormalize embs).getD A [])
        ((DedupApp.rowNormalize embs).getD B []) ≤ ((1 - t : ℚ) : ℝ))
    (hBC : cosDistR ((DedupApp.rowNormalize embs).getD B [])
        ((DedupApp.rowNormalize embs).getD C []) ≤ ((1 - t : ℚ) : ℝ)) :
    ∃ r ms, (r, ms) ∈ cl ∧ A ∈ ms ∧ C ∈ ms := by
  have hn0 : ¬ embs.length = 0 := by omega
  by_cases hval : 1 - t ≤ 0 ∨ 2 ≤ 1 - t
  · simp only [DedupApp.build_clusters, if_neg hn0, if_pos hval] at hok
    exact absurd hok (by simp)
  · simp only [DedupApp.build_clusters, if_neg hn0, if_neg hval] at hok
    have hcl : DedupApp.clusterAssign (DedupApp.neighLists embs t) embs.length = cl :=
      Except.ok.inj hok
    rw [← hcl]
    have hlenn : (DedupApp.neighLists embs t).length = embs.length :=
      neighLists_length embs t
    have hdlen : (DedupApp.dsuInit embs.length).parent.length = embs.length := by
      simp [DedupApp.dsuInit]
    have hbounds : ∀ e ∈ DedupApp.edgesOf (DedupApp.neighLists embs t),
        e.1 < (DedupApp.dsuInit embs.length).parent.length
          ∧ e.2 < (DedupApp.dsuInit embs.length).parent.length := by
      intro e he
      rw [hdlen]
      exact edgesOf_neigh_bounds embs t e he
    obtain ⟨hwfa1, hwfr1, hlen1, hmono⟩ :=
      unionPairs_spec (DedupApp.edgesOf (DedupApp.neighLists embs t))
        (DedupApp.dsuInit embs.length) (dsuInit_wfa embs.length)
        (dsuInit_wfr embs.length) hbounds
    have hARB : DedupApp.sameRoot
        (DedupApp.unionPairs (DedupApp.dsuInit embs.length)
          (DedupApp.edgesOf (DedupApp.neighLists embs t))).parent A B := by
      by_cases hab : A = B
      · rw [hab]
        exact sameRoot_self _ hwfa1 B
      · refine unionPairs_connect _ _ (dsuInit_wfa embs.length)
          (dsuInit_wfr embs.length) hbounds A B ?_
        refine edgesOf_mem _ A B (by rw [hlenn]; exact hA) ?_
        exact (mem_neigh_iff embs t A B hA).mpr ⟨hB, hAB⟩
    have hBRC : DedupApp.sameRoot
        (DedupApp.unionPairs (DedupApp.dsuInit embs.length)
          (DedupApp.edgesOf (DedupApp.neighLists embs t))).parent B C := by
      by_cases hbc : B = C
      · rw [hbc]
        exact sameRoot_self _ hwfa1 C
      · refine unionPairs_connect _ _ (dsuInit_wfa embs.length)
          (dsuInit_wfr embs.length) hbounds B C ?_
        refine edgesOf_mem _ B C (by rw [hlenn]; exact hB) ?_
        exact (mem_neigh_iff embs t B C hB).mpr ⟨hC, hBC⟩
    obtain ⟨r, hrA, hrC⟩ := sameRoot_trans _ A B C hARB hBRC
    obtain ⟨hklen, hkspec⟩ := clusterKeysLoop_spec (List.range embs.length)
      (DedupApp.unionPairs (DedupApp.dsuInit embs.length)
        (DedupApp.edgesOf (DedupApp.neighLists embs t))) hwfa1
    have hkA : (DedupApp.clusterKeysLoop (List.range embs.length)
        (DedupApp.unionPairs (DedupApp.dsuInit embs.length)
          (DedupApp.edgesOf (DedupApp.neighLists embs t)))).1.getD A 0 = r := by
      refine hkspec A (by simpa using hA) r ?_
      rw [range_getD_self _ _ hA]
      exact hrA
    have hkC : (DedupApp.clusterKeysLoop (List.range embs.length)
        (DedupApp.unionPairs (DedupApp.dsuInit embs.length)
          (DedupApp.edgesOf (DedupApp.neighLists embs t)))).1.getD C 0 = r := by
      refine hkspec C (by simpa using hC) r ?_
      rw [range_getD_self _ _ hC]
      exact hrC
    obtain ⟨msA, hmsA, hAin⟩ := groupByKey_mem
      (DedupApp.clusterKeysLoop (List.range embs.length)
        (DedupApp.unionPairs (DedupApp.dsuInit embs.length)
          (DedupApp.edgesOf (DedupApp.neighLists embs t)))).1 A
      (by rw [hklen]; simpa using hA)
    obtain ⟨msC, hmsC, hCin⟩ := groupByKey_mem
      (DedupApp.clusterKeysLoop (List.range embs.length)
        (DedupApp.unionPairs (DedupApp.dsuInit embs.length)
          (DedupApp.edgesOf (DedupApp.neighLists embs t)))).1 C
      (by rw [hklen]; simpa using hC)
    rw [hkA] at hmsA
    rw [hkC] at hmsC
    have hms : msA = msC :=
      assoc_nodup_unique _ r msA msC (groupByKey_fsts_nodup _) hmsA hmsC
    refine ⟨r, msA, ?_, hAin, by rw [hms]; exact hCin⟩
    simp only [DedupApp.clusterAssign]
    exact hmsA

/-- Witness for C3 at a concrete input: two identical one-dimensional
rows at threshold 1/2 land in one cluster (A = 0, B = C = 1). -/
theorem c3_clusters_transitively_closed_witness :
    ∃ r ms, (r, ms) ∈ DedupApp.clusterAssign
        (DedupApp.neighLists [[(1:ℚ)],[(1:ℚ)]] (1/2)) 2 ∧ 0 ∈ ms ∧ 1 ∈ ms := by
  have hok : DedupApp.build_clusters [[(1:ℚ)],[(1:ℚ)]] (1/2)
      = Except.ok (DedupApp.clusterAssign
          (DedupApp.neighLists [[(1:ℚ)],[(1:ℚ)]] (1/2)) 2) := by
    norm_num [DedupApp.build_clusters]
  have hrow : DedupApp.rowNormalize [[(1:ℚ)],[(1:ℚ)]] = [[1],[1]] := by
    simp [DedupApp.rowNormalize, DedupApp.adjNorm, normQR]
  have hd : ∀ i j : Nat, i < 2 → j < 2 →
      cosDistR ((DedupApp.rowNormalize [[(1:ℚ)],[(1:ℚ)]]).getD i [])
        ((DedupApp.rowNormalize [[(1:ℚ)],[(1:ℚ)]]).getD j [])
        ≤ ((1 - 1/2 : ℚ) : ℝ) := by
    intro i j hi hj
    have hget : ∀ k : Nat, k < 2 →
        (DedupApp.rowNormalize [[(1:ℚ)],[(1:ℚ)]]).getD k [] = [(1:ℝ)] := by
      intro k hk
      rw [hrow]
      interval_cases k
      · rfl
      · rfl
    rw [hget i hi, hget j hj]
    have hcd : cosDistR [(1:ℝ)] [(1:ℝ)] = 0 := by
      simp [cosDistR, dotR, normRl]
    rw [hcd]
    norm_num
  exact c3_clusters_transitively_closed [[(1:ℚ)],[(1:ℚ)]] (1/2) 0 1 1 _ hok
    (by norm_num) (by norm_num) (by norm_num)
    (hd 0 1 (by norm_num) (by norm_num)) (hd 1 1 (by norm_num) (by norm_num))
